import Mathlib

/-!
Shallow embedding of the `locky-puzzle` Rust library (state, moves, move
generator, projections, heuristics, solver, multi-stage solver), together
with theorems settling the frozen claims about its specification.

The Rust `State` is an array of 48 stickers; we embed it as a function
`Fin 48 → Sticker`.  Rust in-place mutation (swap sequences, ring
copy-out/permute/copy-in) is embedded as explicit functional updates in the
same order as the source.
-/

namespace Locky

universe u v

variable {α : Type u} {β : Type v}

/-- `state.rs`: a sticker's face color (`Face`). -/
inductive Face where
  | U | D | F | B | R | L
deriving DecidableEq, Fintype

/-- `state.rs`: a restriction on the direction a sticker can be turned
(`Direction`). -/
inductive Direction where
  | Clockwise | Counter | Neutral
deriving DecidableEq, Fintype

/-- `state.rs`: a sticker on the puzzle (`Sticker`). -/
structure Sticker where
  face : Face
  direction : Direction
deriving DecidableEq

instance : Fintype Sticker :=
  Fintype.ofEquiv (Face × Direction)
    { toFun := fun p => ⟨p.1, p.2⟩
      invFun := fun s => (s.face, s.direction)
      left_inv := fun _ => rfl
      right_inv := fun _ => rfl }

/-- `state.rs`: the sticker configuration of a puzzle (`State`), 8 stickers
per face in face order U, D, F, B, R, L. -/
def State := Fin 48 → Sticker

instance : DecidableEq State := inferInstanceAs (DecidableEq (Fin 48 → Sticker))

/-- Base index of each face's 8-sticker block (`State::face`). -/
def faceBase : Face → ℕ
  | .U => 0
  | .D => 8
  | .F => 16
  | .B => 24
  | .R => 32
  | .L => 40

/-- Global sticker position of slot `i` of face `f`. -/
def fpos (f : Face) (i : Fin 8) : Fin 48 :=
  ⟨faceBase f + i.val, by cases f <;> simp [faceBase] <;> omega⟩

/-- The face whose block position `p` belongs to (inverse of `fpos`). -/
def faceOfIdx : Fin 6 → Face
  | 0 => .U
  | 1 => .D
  | 2 => .F
  | 3 => .B
  | 4 => .R
  | 5 => .L

/-- `State::solved`: native arrow direction per face. -/
def solvedDirection : Fin 6 → Direction
  | 0 => .Counter
  | 1 => .Clockwise
  | 2 => .Clockwise
  | 3 => .Counter
  | 4 => .Clockwise
  | 5 => .Counter

/-- `State::solved`: the two slots per face carrying the native arrow. -/
def arrowIdxs : Fin 6 → ℕ × ℕ
  | 0 => (1, 6)
  | 1 => (1, 6)
  | 2 => (3, 4)
  | 3 => (3, 4)
  | 4 => (1, 6)
  | 5 => (1, 6)

/-- `State::solved()`: slot `i` of face `f` carries label `f`; arrow
directions are fixed per (face, slot) by the hard-coded tables. -/
def solvedState : State := fun p =>
  let fi : Fin 6 := ⟨p.val / 8, by omega⟩
  let subIdx := p.val % 8
  { face := faceOfIdx fi
    direction :=
      if subIdx = (arrowIdxs fi).1 ∨ subIdx = (arrowIdxs fi).2 then
        solvedDirection fi
      else
        .Neutral }

/-- `State::is_solved`: every sticker of every face carries that face's
label (arrow directions are not inspected). -/
def State.isSolved (s : State) : Bool :=
  [Face.U, Face.D, Face.F, Face.B, Face.R, Face.L].all fun f =>
    (List.finRange 8).all fun i => decide ((s (fpos f i)).face = f)

/-- The 8 sticker directions of a face, in slot order. -/
def faceDirs (s : State) (f : Face) : List Direction :=
  (List.finRange 8).map fun i => (s (fpos f i)).direction

/-- Accumulator loop of `State::is_locked`: `acc` is the first non-Neutral
direction seen so far (`Neutral` while none was seen). -/
def lockedLoop : Direction → List Direction → Bool
  | _, [] => false
  | acc, d :: rest =>
    if acc = Direction.Neutral then lockedLoop d rest
    else if d ≠ Direction.Neutral then
      (if d ≠ acc then true else lockedLoop acc rest)
    else lockedLoop acc rest

/-- `State::is_locked`: a face is locked iff its stickers contain two
conflicting non-Neutral directions. -/
def State.isLocked (s : State) (f : Face) : Bool :=
  lockedLoop Direction.Neutral (faceDirs s f)

/-- `moves.rs`: the number of times a face is turned (`Turns`). -/
inductive Turns where
  | Clockwise | Double | Counter
deriving DecidableEq, Fintype

/-- `moves.rs`: a single move (`Move`). -/
structure Move where
  face : Face
  turns : Turns
deriving DecidableEq

instance : Fintype Move :=
  Fintype.ofEquiv (Face × Turns)
    { toFun := fun p => ⟨p.1, p.2⟩
      invFun := fun m => (m.face, m.turns)
      left_inv := fun _ => rfl
      right_inv := fun _ => rfl }

/-- `moves.rs`: `ALL_MOVES`, the 18 moves in their canonical order. -/
def ALL_MOVES : List Move :=
  [⟨.U, .Clockwise⟩, ⟨.U, .Double⟩, ⟨.U, .Counter⟩,
   ⟨.D, .Clockwise⟩, ⟨.D, .Double⟩, ⟨.D, .Counter⟩,
   ⟨.F, .Clockwise⟩, ⟨.F, .Double⟩, ⟨.F, .Counter⟩,
   ⟨.B, .Clockwise⟩, ⟨.B, .Double⟩, ⟨.B, .Counter⟩,
   ⟨.R, .Clockwise⟩, ⟨.R, .Double⟩, ⟨.R, .Counter⟩,
   ⟨.L, .Clockwise⟩, ⟨.L, .Double⟩, ⟨.L, .Counter⟩]

/-- `<T as SliceExt>::swap` on a 48-entry container: exchange the entries at
positions `a` and `b`. -/
def swapF (a b : Fin 48) (s : Fin 48 → α) : Fin 48 → α := fun i =>
  if i = a then s b else if i = b then s a else s i

/-- `Turns::permute_indirect`: permute four entries of the container (given
by `idx`), assuming they are listed clockwise, by the source's exact swap
sequences. -/
def permuteIndirect (t : Turns) (idx : Fin 4 → Fin 48) (s : Fin 48 → α) :
    Fin 48 → α :=
  match t with
  | .Clockwise => swapF (idx 2) (idx 3) (swapF (idx 1) (idx 3) (swapF (idx 0) (idx 3) s))
  | .Double => swapF (idx 1) (idx 3) (swapF (idx 0) (idx 2) s)
  | .Counter => swapF (idx 0) (idx 1) (swapF (idx 0) (idx 2) (swapF (idx 0) (idx 3) s))

/-- Global positions of the corner 4-cycle (slots 0,2,7,5) of a face. -/
def cornerCycle (f : Face) : Fin 4 → Fin 48 :=
  ![fpos f 0, fpos f 2, fpos f 7, fpos f 5]

/-- Global positions of the edge 4-cycle (slots 1,4,6,3) of a face. -/
def edgeCycle (f : Face) : Fin 4 → Fin 48 :=
  ![fpos f 1, fpos f 4, fpos f 6, fpos f 3]

/-- `Turns::apply_face`: corner permutation, then edge permutation. -/
def applyFace (t : Turns) (f : Face) (s : Fin 48 → α) : Fin 48 → α :=
  permuteIndirect t (edgeCycle f) (permuteIndirect t (cornerCycle f) s)

/-- `moves.rs::face_ring`: the stickers adjacent to a face, grouped by 3's
from the same adjacent face, clockwise (bases U=0, D=8, F=16, B=24, R=32,
L=40). -/
def faceRing : Face → Fin 4 → Fin 3 → Fin 48
  | .U => ![![26, 25, 24], ![34, 33, 32], ![18, 17, 16], ![42, 41, 40]]
  | .D => ![![21, 22, 23], ![37, 38, 39], ![29, 30, 31], ![45, 46, 47]]
  | .F => ![![5, 6, 7], ![32, 35, 37], ![10, 9, 8], ![47, 44, 42]]
  | .B => ![![2, 1, 0], ![40, 43, 45], ![13, 14, 15], ![39, 36, 34]]
  | .R => ![![7, 4, 2], ![24, 27, 29], ![15, 12, 10], ![23, 20, 18]]
  | .L => ![![0, 3, 5], ![16, 19, 21], ![8, 11, 13], ![31, 28, 26]]

/-- Swap two of four entries (the `list.swap` calls of `Turns::permute`). -/
def swap4 (a b : Fin 4) (l : Fin 4 → β) : Fin 4 → β := fun i =>
  if i = a then l b else if i = b then l a else l i

/-- `Turns::permute`: permute a 4-entry list assumed clockwise. -/
def Turns.permute (t : Turns) (l : Fin 4 → β) : Fin 4 → β :=
  match t with
  | .Clockwise => swap4 2 3 (swap4 1 3 (swap4 0 3 l))
  | .Double => swap4 1 3 (swap4 0 2 l)
  | .Counter => swap4 0 1 (swap4 0 2 (swap4 0 3 l))

/-- The (i, j) write order of `Turns::apply_ring`'s copy-back loop. -/
def ringPairs : List (Fin 4 × Fin 3) :=
  [(0, 0), (0, 1), (0, 2), (1, 0), (1, 1), (1, 2),
   (2, 0), (2, 1), (2, 2), (3, 0), (3, 1), (3, 2)]

/-- A single array write `state.0[a] = v` (as a functional update). -/
def updF (g : Fin 48 → α) (a : Fin 48) (v : α) : Fin 48 → α := fun i =>
  if i = a then v else g i

/-- `Turns::apply_ring`: copy the 12 ring stickers out (`cur`, inlined here
as the gather `fun i j => s (faceRing f i j)`), permute the four rows, and
copy them back in loop order. -/
def applyRing (t : Turns) (f : Face) (s : Fin 48 → α) : Fin 48 → α :=
  ringPairs.foldl
    (fun st ij => updF st (faceRing f ij.1 ij.2)
      (t.permute (fun i j => s (faceRing f i j)) ij.1 ij.2)) s

/-- `Move::apply`, generic in the entry type (the source's permutations are
generic and never modify a sticker's fields): face permutation first, then
ring permutation. -/
def Move.applyG (m : Move) (s : Fin 48 → α) : Fin 48 → α :=
  applyRing m.turns m.face (applyFace m.turns m.face s)

/-- `Move::apply` on states. -/
def Move.apply (m : Move) (s : State) : State := m.applyG s

/-- `Algo::apply`: apply moves left-to-right. -/
def applyMoves (ms : List Move) (s : State) : State :=
  ms.foldl (fun st m => m.apply st) s

/-- Modelled from the spec: `Move::inverse` is not under `src/` (only its
caller `scramble.rs` is).  Spec: "A move's *inverse* is the same face with
`{Clockwise↔Counter, Double↔Double}`." -/
def Move.inverse (m : Move) : Move :=
  ⟨m.face, match m.turns with
    | .Clockwise => .Counter
    | .Double => .Double
    | .Counter => .Clockwise⟩

/-!
## The permutation view of moves

`Move::apply` only relocates stickers (all its primitives are generic in
the entry type and never inspect or modify a sticker).  We prove that it
acts by precomposition with a fixed index permutation `movePerm m`, by
showing each primitive is natural in the entry type.
-/

theorem swapF_comp (g : α → β) (a b : Fin 48) (s : Fin 48 → α) :
    (fun i => g (swapF a b s i)) = swapF a b (fun i => g (s i)) := by
  funext i
  simp only [swapF]
  split_ifs <;> rfl

theorem updF_comp (g : α → β) (a : Fin 48) (v : α) (s : Fin 48 → α) :
    (fun i => g (updF s a v i)) = updF (fun i => g (s i)) a (g v) := by
  funext i
  simp only [updF]
  split_ifs <;> rfl

theorem swap4_comp {β1 : Type u} {γ : Type v} (g : β1 → γ) (a b : Fin 4)
    (l : Fin 4 → β1) :
    (fun i => g (swap4 a b l i)) = swap4 a b (fun i => g (l i)) := by
  funext i
  simp only [swap4]
  split_ifs <;> rfl

theorem permuteIndirect_comp (g : α → β) (t : Turns) (idx : Fin 4 → Fin 48)
    (s : Fin 48 → α) :
    (fun i => g (permuteIndirect t idx s i)) =
      permuteIndirect t idx (fun i => g (s i)) := by
  cases t <;> simp only [permuteIndirect, swapF_comp]

theorem permute_comp {β1 : Type u} {γ : Type v} (g : β1 → γ) (t : Turns)
    (l : Fin 4 → β1) :
    (fun i => g (t.permute l i)) = t.permute (fun i => g (l i)) := by
  cases t <;> simp only [Turns.permute, swap4_comp]

theorem applyFace_comp (g : α → β) (t : Turns) (f : Face) (s : Fin 48 → α) :
    (fun i => g (applyFace t f s i)) = applyFace t f (fun i => g (s i)) := by
  simp only [applyFace, permuteIndirect_comp]

theorem foldl_updF_comp (g : α → β) (f : Face) (vals : Fin 4 → Fin 3 → α)
    (pairs : List (Fin 4 × Fin 3)) (s : Fin 48 → α) :
    (fun i => g ((pairs.foldl
        (fun st ij => updF st (faceRing f ij.1 ij.2) (vals ij.1 ij.2)) s) i)) =
      pairs.foldl
        (fun st ij => updF st (faceRing f ij.1 ij.2) (g (vals ij.1 ij.2)))
        (fun i => g (s i)) := by
  induction pairs generalizing s with
  | nil => rfl
  | cons hd tl ih =>
    simp only [List.foldl_cons]
    rw [ih, updF_comp]

theorem applyRing_comp (g : α → β) (t : Turns) (f : Face) (s : Fin 48 → α) :
    (fun i => g (applyRing t f s i)) = applyRing t f (fun i => g (s i)) := by
  have hv : ∀ (i : Fin 4) (j : Fin 3),
      g (t.permute (fun a b => s (faceRing f a b)) i j)
        = t.permute (fun a b => g (s (faceRing f a b))) i j := by
    intro i j
    have h := permute_comp (fun (r : Fin 3 → α) (j : Fin 3) => g (r j)) t
      (fun a b => s (faceRing f a b))
    exact congrFun (congrFun h i) j
  have hbase := foldl_updF_comp g f
    (fun a b => t.permute (fun i j => s (faceRing f i j)) a b) ringPairs s
  simp only [applyRing]
  rw [hbase]
  have hfun : (fun (st : Fin 48 → β) (ij : Fin 4 × Fin 3) =>
      updF st (faceRing f ij.1 ij.2)
        (g (t.permute (fun a b => s (faceRing f a b)) ij.1 ij.2)))
    = (fun st ij => updF st (faceRing f ij.1 ij.2)
        (t.permute (fun a b => g (s (faceRing f a b))) ij.1 ij.2)) := by
    funext st ij
    rw [hv]
  rw [hfun]

theorem applyG_comp (g : α → β) (m : Move) (s : Fin 48 → α) :
    (fun i => g (m.applyG s i)) = m.applyG (fun i => g (s i)) := by
  simp only [Move.applyG]
  rw [applyRing_comp, applyFace_comp]

/-- The index permutation realized by `Move::apply`: the sticker ending at
position `i` comes from position `movePerm m i`. -/
def movePerm (m : Move) : Fin 48 → Fin 48 := m.applyG id

/-- `Move::apply` acts on a container purely by index permutation. -/
theorem applyG_eq_perm (m : Move) (s : Fin 48 → α) :
    m.applyG s = fun i => s (movePerm m i) := by
  have h := applyG_comp s m id
  simpa using h.symm

/-- `Move::apply` on states, pointwise permutation form. -/
theorem apply_eq_perm (m : Move) (s : State) (i : Fin 48) :
    m.apply s i = s (movePerm m i) := by
  rw [Move.apply, applyG_eq_perm]

/-!
## Move generator (`move_gen.rs`)
-/

/-- `move_gen.rs`: an axis of the cube. -/
inductive Axis where
  | UD | FB | RL
deriving DecidableEq, Fintype

/-- `move_gen.rs`: how far an axis is disabled for the next move. -/
inductive AxisState where
  | Enabled | HalfDisabled | Disabled
deriving DecidableEq, Fintype

/-- `move_gen.rs`: the generator state `MoveGen`. -/
structure MoveGen where
  axis : Axis
  axisState : AxisState
deriving DecidableEq

instance : Fintype MoveGen :=
  Fintype.ofEquiv (Axis × AxisState)
    { toFun := fun p => ⟨p.1, p.2⟩
      invFun := fun g => (g.axis, g.axisState)
      left_inv := fun _ => rfl
      right_inv := fun _ => rfl }

/-- `MoveGen::new()`. -/
def MoveGen.new : MoveGen := ⟨.UD, .Enabled⟩

/-- `move_gen.rs::decompose_face`: the axis of a face, and whether the face
is the axis's primary face. -/
def decomposeFace : Face → Axis × Bool
  | .U => (.UD, true)
  | .D => (.UD, false)
  | .F => (.FB, true)
  | .B => (.FB, false)
  | .R => (.RL, true)
  | .L => (.RL, false)

/-- One step of `MoveGenIter::next` at move `m`: `some g2` when `m` is
yielded with successor generator `g2`, `none` when it is skipped. -/
def genNext (g : MoveGen) (m : Move) : Option MoveGen :=
  let ap := decomposeFace m.face
  if ap.1 ≠ g.axis ∨ g.axisState = AxisState.Enabled then
    some ⟨ap.1, if ap.2 then .HalfDisabled else .Disabled⟩
  else if ¬ap.2 ∧ g.axisState = AxisState.HalfDisabled then
    some ⟨ap.1, .Disabled⟩
  else
    none

/-- The full yield sequence of `MoveGenIter` (the iterator walks
`ALL_MOVES` in order, yielding or skipping each move). -/
def MoveGen.yields (g : MoveGen) : List (MoveGen × Move) :=
  ALL_MOVES.filterMap fun m => (genNext g m).map fun g2 => (g2, m)

/-!
## Projections (`proj.rs`)
-/

/-- `proj.rs::CORNERS`: the UD/FB/RL stickers for each corner. -/
def CORNERS : List (Fin 48 × Fin 48 × Fin 48) :=
  [(0, 26, 40), (2, 24, 34), (5, 16, 42), (7, 18, 32),
   (13, 31, 45), (15, 29, 39), (8, 21, 47), (10, 23, 37)]

/-- `LockProj::dir_u8`. -/
def dirU8 : Direction → ℕ
  | .Clockwise => 0
  | .Counter => 1
  | .Neutral => 2

/-- `LockProj::dirs_u8`. -/
def dirsU8 (d1 d2 d3 d4 : Direction) : ℕ :=
  dirU8 d1 ||| (dirU8 d2 <<< 2) ||| (dirU8 d3 <<< 4) ||| (dirU8 d4 <<< 6)

/-- `proj.rs`: `LockProj`, the packed directions of the four edge slots
(1, 3, 4, 6) of each face. -/
structure LockProj where
  packedFaces : List ℕ
deriving DecidableEq

/-- Global position `face_idx * 8 + k`. -/
def gpos (fi : Fin 6) (k : Fin 8) : Fin 48 :=
  ⟨fi.val * 8 + k.val, by omega⟩

/-- `LockProj::project`. -/
def LockProj.project (s : State) : LockProj :=
  ⟨(List.finRange 6).map fun fi =>
    dirsU8 (s (gpos fi 1)).direction (s (gpos fi 3)).direction
      (s (gpos fi 4)).direction (s (gpos fi 6)).direction⟩

/-- `CornerProj::face_u8`. -/
def faceU8 : Face → ℕ
  | .U => 0
  | .D => 1
  | .F => 2
  | .B => 3
  | .R => 4
  | .L => 5

/-- `CornerProj::faces_u8`. -/
def facesU8 (f1 f2 : Face) : ℕ := faceU8 f1 ||| (faceU8 f2 <<< 4)

/-- `proj.rs`: `CornerProj`, corner labels of the four corner-carrying
faces plus the lock projection. -/
structure CornerProj where
  lock : LockProj
  packedCorners : List ℕ
deriving DecidableEq

/-- `CornerProj::project_with_lock` (with the lock recomputed as in
`Proj::project`'s default method). -/
def CornerProj.project (s : State) : CornerProj :=
  { lock := LockProj.project s
    packedCorners := (List.finRange 4).flatMap fun fi =>
      [facesU8 (s (gpos ⟨fi.val, by omega⟩ 0)).face
         (s (gpos ⟨fi.val, by omega⟩ 2)).face,
       facesU8 (s (gpos ⟨fi.val, by omega⟩ 5)).face
         (s (gpos ⟨fi.val, by omega⟩ 7)).face] }

/-- `ArrowAxisProj::sticker_u8`. -/
def stickerU8 (st : Sticker) : ℕ :=
  if st.direction = Direction.Neutral then 0
  else match st.face with
    | .U | .D => 0
    | .F | .B => 1
    | .R | .L => 2

/-- `proj.rs`: `ArrowAxisProj`, the axes of arrowed edge stickers plus the
lock projection. -/
structure ArrowAxisProj where
  lock : LockProj
  packedAxes : List ℕ
deriving DecidableEq

/-- `ArrowAxisProj::project_with_lock` (per-face packing by
`ArrowAxisProj::face_u8`). -/
def ArrowAxisProj.project (s : State) : ArrowAxisProj :=
  { lock := LockProj.project s
    packedAxes := (List.finRange 6).map fun fi =>
      stickerU8 (s (gpos fi 1)) ||| (stickerU8 (s (gpos fi 3)) <<< 2) |||
        (stickerU8 (s (gpos fi 4)) <<< 4) ||| (stickerU8 (s (gpos fi 6)) <<< 6) }

/-- The value type generated by the `make_co!` macro (`CoUdProj`,
`CoFbProj`, `CoRlProj` all share this shape). -/
structure CoProj where
  lock : LockProj
  packedCo : ℕ
deriving DecidableEq

/-- Body of `make_co!`'s `project_with_lock` for axis faces `f1`, `f2`. -/
def coProject (f1 f2 : Face) (s : State) : CoProj :=
  { lock := LockProj.project s
    packedCo := CORNERS.foldl (fun orientations c =>
      (orientations <<< 2) |||
        (if (s c.1).face = f1 ∨ (s c.1).face = f2 then 0
         else if (s c.2.1).face = f1 ∨ (s c.2.1).face = f2 then 1
         else 2)) 0 }

/-- `CoUdProj::project_with_lock`. -/
def CoUdProj.project (s : State) : CoProj := coProject .U .D s

/-- `CoFbProj::project_with_lock`. -/
def CoFbProj.project (s : State) : CoProj := coProject .F .B s

/-- `CoRlProj::project_with_lock`. -/
def CoRlProj.project (s : State) : CoProj := coProject .R .L s

/-- The value type generated by the `make_corner_axis!` macro
(`CornerUdProj`, `CornerFbProj`, `CornerRlProj` all share this shape). -/
structure CornerAxisProj where
  lock : LockProj
  packedFaces : ℕ
deriving DecidableEq

/-- Body of `make_corner_axis!`'s `project_with_lock` for primary axis face
`f1` (the macro receives `$face2` as well but its condition only tests
`$face1` against the three corner stickers). -/
def cornerAxisProject (f1 : Face) (s : State) : CornerAxisProj :=
  { lock := LockProj.project s
    packedFaces := CORNERS.foldl (fun faces c =>
      (faces <<< 1) |||
        (if f1 = (s c.1).face ∨ f1 = (s c.2.1).face ∨ f1 = (s c.2.2).face then 0
         else 1)) 0 }

/-- `CornerUdProj::project_with_lock` (macro instance `(U, D)`). -/
def CornerUdProj.project (s : State) : CornerAxisProj := cornerAxisProject .U s

/-- `CornerFbProj::project_with_lock` (macro instance `(F, B)`). -/
def CornerFbProj.project (s : State) : CornerAxisProj := cornerAxisProject .F s

/-- `CornerRlProj::project_with_lock` (macro instance `(R, L)`). -/
def CornerRlProj.project (s : State) : CornerAxisProj := cornerAxisProject .R s

/-- Modelled from the spec: `PairProj<A, B>` is imported by
`multi_step.rs` but its definition is not under `src/`.  Spec:
"**PairProj<A,B>**: product combinator; `project(s) = (A::project(s),
B::project(s))`." -/
def pairProj {κ1 : Type} {κ2 : Type} (p1 : State → κ1) (p2 : State → κ2)
    (s : State) : κ1 × κ2 :=
  (p1 s, p2 s)

/-!
## Heuristics (`heuristic.rs`)

The trait method `Heuristic::lower_bound` is embedded as a plain function
`State → ℕ` (the snapshot's `solve.rs` passes the state's lock projection
as an extra argument; per the spec that variant "must produce the same
lower-bound values", so a function of the state is the common form).
-/

/-- `MaxHeuristic::lower_bound`. -/
def maxH (hs : List (State → ℕ)) (s : State) : ℕ :=
  hs.foldl (fun res h => max (h s) res) 0

/-- `NopHeuristic::lower_bound`. -/
def nopH : State → ℕ := fun _ => 0

/-- `ProjHeuristic<T>`: a lookup table of projections and the default
distance (`default` field) used when a projection is absent. -/
structure ProjTable (κ : Type) where
  table : List (κ × ℕ)
  dflt : ℕ

/-- Inner loop of `ProjHeuristic::generate`: expand one queue element,
skipping locked moves and already-seen projections (`Entry::Vacant`). -/
def genExpand {κ : Type} [DecidableEq κ] (proj : State → κ) (dist : ℕ)
    (acc : List (κ × ℕ) × List (MoveGen × State)) (el : MoveGen × State) :
    List (κ × ℕ) × List (MoveGen × State) :=
  el.1.yields.foldl (fun acc2 gm =>
    if el.2.isLocked gm.2.face then acc2
    else
      let ns := gm.2.apply el.2
      let p := proj ns
      if (acc2.1.lookup p).isSome then acc2
      else ((p, dist) :: acc2.1, acc2.2 ++ [(gm.1, ns)])) acc

/-- Layer loop of `ProjHeuristic::generate`: in layer `i` (`dist = i + 1`)
pop every element currently in the queue exactly once. -/
def genLayers {κ : Type} [DecidableEq κ] (proj : State → κ) :
    ℕ → ℕ → List (κ × ℕ) → List (MoveGen × State) → List (κ × ℕ)
  | 0, _, table, _ => table
  | fuel + 1, dist, table, queue =>
    if queue.isEmpty then table
    else
      let res := queue.foldl (genExpand proj dist) (table, [])
      genLayers proj fuel (dist + 1) res.1 res.2

/-- `ProjHeuristic::generate`. -/
def ProjTable.generate {κ : Type} [DecidableEq κ] (proj : State → κ)
    (depth : ℕ) : ProjTable κ :=
  { table := genLayers proj depth 1 [(proj solvedState, 0)]
      [(MoveGen.new, solvedState)]
    dflt := depth + 1 }

/-- `ProjHeuristic::lower_bound`. -/
def ProjTable.lowerBound {κ : Type} [DecidableEq κ] (h : ProjTable κ)
    (proj : State → κ) (s : State) : ℕ :=
  (h.table.lookup (proj s)).getD h.dflt

/-!
## Solver (`solve.rs`)
-/

/-- `solve.rs::solve_search`, with the mutated `history` de-mutated: the
result is the list of moves pushed below this node (`some` iff the Rust
function returns `true`). -/
def solveSearch (h : State → ℕ) : ℕ → State → MoveGen → Option (List Move)
  | 0, s, _ => if s.isSolved then some [] else none
  | d' + 1, s, g =>
    if s.isSolved then some []
    else if d' + 1 < h s then none
    else g.yields.findSome? fun gm =>
      if s.isLocked gm.2.face then none
      else (solveSearch h d' (gm.2.apply s) gm.1).map fun tail => gm.2 :: tail

/-- `solve.rs::solve_serial`. -/
def solveSerial (s : State) (h : State → ℕ) (depth : ℕ) : Option (List Move) :=
  solveSearch h depth s MoveGen.new

/-- The coordinator's collection loop: keep the first solution, replace it
whenever a strictly shorter one arrives. -/
def chooseBest (sols : List (List Move)) : Option (List Move) :=
  sols.foldl (fun best sol =>
    match best with
    | none => some sol
    | some b => if sol.length < b.length then some sol else some b) none

/-- `solve.rs::solve` (the `parallel_search!` macro): at depth 0 fall back
to the serial search; otherwise unroll the first ply over
`MoveGen::new()`, run each first move's subtree search, and return the
shortest collected solution.  Channel arrival order is modeled as spawn
order. -/
def solve (s : State) (h : State → ℕ) (depth : ℕ) : Option (List Move) :=
  match depth with
  | 0 => solveSerial s h 0
  | d' + 1 =>
    chooseBest (MoveGen.new.yields.filterMap fun gm =>
      if s.isLocked gm.2.face then none
      else (solveSearch h d' (gm.2.apply s) gm.1).map fun hist => gm.2 :: hist)

/-- `solve.rs::proj_solve_search`: like `solve_search` with goal predicate
`P::project(state) == solution` (the projection of the solved state). -/
def projSolveSearch {κ : Type} [DecidableEq κ] (proj : State → κ) (goal : κ)
    (h : State → ℕ) : ℕ → State → MoveGen → Option (List Move)
  | 0, s, _ => if goal = proj s then some [] else none
  | d' + 1, s, g =>
    if goal = proj s then some []
    else if d' + 1 < h s then none
    else g.yields.findSome? fun gm =>
      if s.isLocked gm.2.face then none
      else (projSolveSearch proj goal h d' (gm.2.apply s) gm.1).map
        fun tail => gm.2 :: tail

/-- `solve.rs::proj_solve_serial`. -/
def projSolveSerial {κ : Type} [DecidableEq κ] (proj : State → κ) (s : State)
    (h : State → ℕ) (depth : ℕ) : Option (List Move) :=
  projSolveSearch proj (proj solvedState) h depth s MoveGen.new

/-- `solve.rs::proj_solve` (parallel, modeled like `solve`). -/
def projSolve {κ : Type} [DecidableEq κ] (proj : State → κ) (s : State)
    (h : State → ℕ) (depth : ℕ) : Option (List Move) :=
  match depth with
  | 0 => projSolveSerial proj s h 0
  | d' + 1 =>
    chooseBest (MoveGen.new.yields.filterMap fun gm =>
      if s.isLocked gm.2.face then none
      else (projSolveSearch proj (proj solvedState) h d' (gm.2.apply s)
        gm.1).map fun hist => gm.2 :: hist)

/-!
## Multi-stage solver (`multi_step.rs`)

The `MultiStep` struct holds six `ProjHeuristic` tables; each is embedded
here as the `lower_bound` function it induces (the solver only ever calls
`lower_bound` on them).
-/

/-- `multi_step.rs::MultiStepError`. -/
inductive MultiStepError where
  | InvalidCorners | InvalidEdges | InvalidState
deriving DecidableEq

/-- `multi_step.rs::MultiStep` (fields as lower-bound functions). -/
structure MultiStep where
  arrow : State → ℕ
  coFb : State → ℕ
  coRl : State → ℕ
  coUd : State → ℕ
  corner : State → ℕ
  lock : State → ℕ

/-- `MultiStep::step`: iterate `proj_solve` for `i in 0..upper_bound`,
returning the first solution together with the state it leads to. -/
def MultiStep.step {κ : Type} [DecidableEq κ] (proj : State → κ)
    (s : State) (h : State → ℕ) (upperBound : ℕ) : Option (List Move × State) :=
  (List.range upperBound).findSome? fun i =>
    (projSolve proj s h i).map fun sol => (sol, applyMoves sol s)

/-- Stage-2 heuristic `combo1 = MaxHeuristic[arrow, co_fb, co_rl, co_ud]`
of `MultiStep::solve`.  The source also passes this same value as the
heuristic of the stage-3 `step` call. -/
def combo1 (ms : MultiStep) : State → ℕ :=
  maxH [ms.arrow, ms.coFb, ms.coRl, ms.coUd]

/-- Heuristic `combo2 = MaxHeuristic[arrow, corner]` of
`MultiStep::solve`, used by the final full-solve loop. -/
def combo2 (ms : MultiStep) : State → ℕ :=
  maxH [ms.arrow, ms.corner]

/-- The `Combo1Proj` product projection of `MultiStep::solve`. -/
def combo1Proj : State → (ArrowAxisProj × CoProj) × (CoProj × CoProj) :=
  pairProj (pairProj ArrowAxisProj.project CoFbProj.project)
    (pairProj CoRlProj.project CoUdProj.project)

/-- The `Combo2Proj` product projection of `MultiStep::solve`. -/
def combo2Proj : State → ArrowAxisProj × CornerProj :=
  pairProj ArrowAxisProj.project CornerProj.project

/-- Final loop of `MultiStep::solve`: `for i in 0..255` run the full
`solve` with heuristic `combo2`. -/
def multiStepFinal (ms : MultiStep) (parts : List (List Move)) (s : State) :
    Except MultiStepError (List Move × List (List Move)) :=
  match (List.range 255).findSome? fun i => solve s (combo2 ms) i with
  | some algo =>
    let parts2 := parts ++ [algo]
    .ok (parts2.flatMap id, parts2)
  | none => .error .InvalidState

/-- Stages 2 and 3 of `MultiStep::solve` (note: the stage-3 `step` call
passes `combo1`, exactly as the source does). -/
def multiStepStages23 (ms : MultiStep) (parts : List (List Move)) (s : State) :
    Except MultiStepError (List Move × List (List Move)) :=
  match MultiStep.step combo1Proj s (combo1 ms) 255 with
  | none => .error .InvalidCorners
  | some (algo2, s2) =>
    match MultiStep.step combo2Proj s2 (combo1 ms) 255 with
    | none => .error .InvalidState
    | some (algo3, s3) => multiStepFinal ms (parts ++ [algo2, algo3]) s3

/-- `MultiStep::solve`: stage 1 (ArrowAxis within bound 14, with the
Lock-then-ArrowAxis fallback), then stages 2, 3 and the final full solve. -/
def MultiStep.solve (ms : MultiStep) (s : State) :
    Except MultiStepError (List Move × List (List Move)) :=
  match MultiStep.step ArrowAxisProj.project s ms.arrow 14 with
  | some (algo, ns) => multiStepStages23 ms [algo] ns
  | none =>
    match MultiStep.step LockProj.project s ms.lock 13 with
    | none => .error .InvalidEdges
    | some (a1, s1) =>
      match MultiStep.step ArrowAxisProj.project s1 ms.arrow 255 with
      | none => .error .InvalidEdges
      | some (a2, s2) => multiStepStages23 ms [a1, a2] s2

/-!
## Move and algorithm strings (`moves.rs`: `Display` and `FromStr`)

Strings are embedded as `List Char`.
-/

/-- `Display for Face`. -/
def faceChars : Face → List Char
  | .U => ['U']
  | .D => ['D']
  | .F => ['F']
  | .B => ['B']
  | .R => ['R']
  | .L => ['L']

/-- `Display for Move`: face letter, then the turn suffix. -/
def Move.str (m : Move) : List Char :=
  faceChars m.face ++
    (match m.turns with
      | .Clockwise => []
      | .Double => ['2']
      | .Counter => ['\''])

/-- `Display for Algo`: tokens separated by single spaces. -/
def algoStr : List Move → List Char
  | [] => []
  | m :: rest => m.str ++ rest.flatMap fun m2 => ' ' :: m2.str

/-- ASCII whitespace (the claims only involve ASCII input; Rust
`split_whitespace` splits on Unicode whitespace, of which this is the ASCII
part). -/
def isWs (c : Char) : Bool :=
  c = ' ' ∨ c = '\t' ∨ c = '\n' ∨ c = '\r'

/-- Accumulator pass of `str::split_whitespace` (the accumulator holds the
current token reversed). -/
def splitWsAux : List Char → List Char → List (List Char)
  | acc, [] => if acc.isEmpty then [] else [acc.reverse]
  | acc, c :: cs =>
    if isWs c then
      (if acc.isEmpty then splitWsAux [] cs else acc.reverse :: splitWsAux [] cs)
    else
      splitWsAux (c :: acc) cs

/-- `str::split_whitespace`: whitespace-separated tokens, empties skipped. -/
def splitWs (s : List Char) : List (List Char) :=
  splitWsAux [] s

/-- `Move::from_str`: find the move whose display string equals the
token. -/
def moveFromStr (t : List Char) : Option Move :=
  ALL_MOVES.find? fun m => decide (m.str = t)

/-- The token loop of `Algo::from_str`: parse each token, aborting with the
offending token on the first failure. -/
def parseTokens : List (List Char) → Except (List Char) (List Move)
  | [] => .ok []
  | t :: ts =>
    match moveFromStr t with
    | none => .error t
    | some m => (parseTokens ts).map fun rest => m :: rest

/-- `Algo::from_str`. -/
def algoFromStr (s : List Char) : Except (List Char) (List Move) :=
  parseTokens (splitWs s)

/-!
## Helper lemmas
-/

/-- `applyMoves` pointwise: peel one move. -/
theorem applyMoves_cons (m : Move) (ms : List Move) (s : State) :
    applyMoves (m :: ms) s = applyMoves ms (m.apply s) := rfl

/-- The composition of the per-move permutations along an algorithm. -/
def permOfMoves : List Move → Fin 48 → Fin 48
  | [] => id
  | m :: rest => fun i => movePerm m (permOfMoves rest i)

theorem applyMoves_eq_perm (ms : List Move) (s : State) (i : Fin 48) :
    applyMoves ms s i = s (permOfMoves ms i) := by
  induction ms generalizing s with
  | nil => rfl
  | cons m rest ih =>
    rw [applyMoves_cons, ih, apply_eq_perm, permOfMoves]

set_option maxHeartbeats 2000000 in
theorem movePerm_inverse_right : ∀ (m : Move) (i : Fin 48),
    movePerm m (movePerm m.inverse i) = i := by decide

/-- The face each position belongs to. -/
def posFace (p : Fin 48) : Face := faceOfIdx ⟨p.val / 8, by omega⟩

theorem posFace_fpos : ∀ (f : Face) (i : Fin 8), posFace (fpos f i) = f := by
  decide

theorem fpos_posFace : ∀ p : Fin 48,
    fpos (posFace p) ⟨p.val % 8, by omega⟩ = p := by decide

theorem mem_faceList : ∀ f : Face,
    f ∈ [Face.U, Face.D, Face.F, Face.B, Face.R, Face.L] := by decide

/-- `State::is_solved` holds iff every sticker carries the label of the
face it sits on. -/
theorem isSolved_iff (s : State) :
    s.isSolved = true ↔ ∀ p : Fin 48, (s p).face = posFace p := by
  unfold State.isSolved
  simp only [List.all_eq_true, List.mem_finRange, decide_eq_true_eq]
  constructor
  · intro h p
    have h2 := h (posFace p) (mem_faceList _) ⟨p.val % 8, by omega⟩
      (by simp [List.mem_finRange])
    rwa [fpos_posFace] at h2
  · intro h f _ i _
    rw [h (fpos f i), posFace_fpos]

/-!
## Claim C2: move reversibility
-/

/-- C2.  For every `State` s and every `Move` m, applying m and then m's
inverse (same face, turns mapped Clockwise↔Counter, Double↦Double) yields
exactly s again. -/
theorem c2_move_reversibility :
    ∀ (s : State) (m : Move), (m.inverse).apply (m.apply s) = s := by
  intro s m
  funext i
  rw [apply_eq_perm, apply_eq_perm, movePerm_inverse_right]

/-!
## Claim C4: move generator transition rule
-/

/-- The axis of a face, as the spec's §4.3 words define it ("Axes are UD
(U,D), FB (F,B), RL (R,L)"). -/
def axisOfFace : Face → Axis
  | .U | .D => .UD
  | .F | .B => .FB
  | .R | .L => .RL

/-- The spec's primary faces ("the primary face is the first of the two
(U, F, R respectively)"). -/
def isPrimaryFace (f : Face) : Bool :=
  decide (f = Face.U ∨ f = Face.F ∨ f = Face.R)

/-- The claim's transition rule, stated from the spec's own wording,
independently of the iterator code. -/
def specGenRule (g : MoveGen) (m : Move) : Option MoveGen :=
  let a := axisOfFace m.face
  let p := isPrimaryFace m.face
  if a ≠ g.axis ∨ g.axisState = AxisState.Enabled then
    some ⟨a, if p then .HalfDisabled else .Disabled⟩
  else if g.axisState = AxisState.HalfDisabled ∧ p = false then
    some ⟨a, .Disabled⟩
  else
    none

/-- C4.  For every generator state and every one of the 18 moves, taken in
the canonical `ALL_MOVES` order, the iterator yields (with the successor
the spec's rule prescribes) or skips exactly as the spec's rule says. -/
theorem c4_move_generator_rule :
    (∀ (g : MoveGen) (m : Move), genNext g m = specGenRule g m) ∧
      (∀ g : MoveGen, g.yields =
        ALL_MOVES.filterMap fun m => (specGenRule g m).map fun g2 => (g2, m)) := by
  have h : ∀ (g : MoveGen) (m : Move), genNext g m = specGenRule g m := by decide
  refine ⟨h, fun g => ?_⟩
  unfold MoveGen.yields
  congr 1
  funext m
  rw [h]

/-!
## Claim C10: the solved predicate ignores arrow directions
-/

/-- A state whose labels are all home but whose arrows sit on the wrong
slots (U-face slots 3 and 4 instead of the solved slots 1 and 6). -/
def weirdState : State := fun p =>
  { face := posFace p
    direction :=
      if p.val = 3 ∨ p.val = 4 then Direction.Counter else Direction.Neutral }

/-- C10.  `is_solved` is label-only: it holds iff all 48 stickers carry
their face's label; consequently the arrow-scrambled `weirdState` is
reported solved, differs from the solved state, and is accepted as the
goal by `solve_serial` (any depth, any heuristic) and by `solve` at depth
0. -/
theorem c10_is_solved_ignores_directions :
    (∀ s : State, s.isSolved = true ↔ ∀ p : Fin 48, (s p).face = posFace p) ∧
      weirdState.isSolved = true ∧
      weirdState ≠ solvedState ∧
      (∀ (h : State → ℕ) (d : ℕ), solveSerial weirdState h d = some []) ∧
      (∀ h : State → ℕ, solve weirdState h 0 = some []) := by
  have hsolved : weirdState.isSolved = true := by decide
  have hser : ∀ (h : State → ℕ) (d : ℕ), solveSerial weirdState h d = some [] := by
    intro h d
    cases d with
    | zero =>
      rw [solveSerial, solveSearch]
      simp [hsolved]
    | succ d' =>
      rw [solveSerial, solveSearch]
      simp [hsolved]
  exact ⟨isSolved_iff, hsolved, by decide, hser, fun h => hser h 0⟩

/-!
## Claim C6: LockProj determines the lock predicate on reachable states
-/

/-- Reachability from the solved state by some move sequence. -/
def Reachable (s : State) : Prop :=
  ∃ ms : List Move, applyMoves ms solvedState = s

/-- Whether a position is one of the four edge slots (1, 3, 4, 6) of its
face. -/
def edgeSlot (p : Fin 48) : Bool :=
  decide (p.val % 8 = 1 ∨ p.val % 8 = 3 ∨ p.val % 8 = 4 ∨ p.val % 8 = 6)

/-- Every move maps edge slots to edge slots and corner slots to corner
slots. -/
theorem movePerm_edgeSlot : ∀ (m : Move) (p : Fin 48),
    edgeSlot (movePerm m p) = edgeSlot p := by decide

/-- All corner-slot stickers of a state are direction-Neutral. -/
def cornersNeutral (s : State) : Prop :=
  ∀ p : Fin 48, edgeSlot p = false → (s p).direction = Direction.Neutral

theorem cornersNeutral_solved : cornersNeutral solvedState := by
  unfold cornersNeutral
  decide

theorem cornersNeutral_applyMoves (ms : List Move) (s : State)
    (h : cornersNeutral s) : cornersNeutral (applyMoves ms s) := by
  induction ms generalizing s with
  | nil => exact h
  | cons m rest ih =>
    rw [applyMoves_cons]
    refine ih _ fun p hp => ?_
    rw [apply_eq_perm]
    exact h _ (by rw [movePerm_edgeSlot]; exact hp)

/-- Index of a face in the face order U, D, F, B, R, L. -/
def faceIdx : Face → Fin 6
  | .U => 0
  | .D => 1
  | .F => 2
  | .B => 3
  | .R => 4
  | .L => 5

theorem gpos_faceIdx : ∀ (f : Face) (k : Fin 8),
    gpos (faceIdx f) k = fpos f k := by decide

theorem edgeSlot_fpos : ∀ (f : Face) (k : Fin 8),
    edgeSlot (fpos f k) =
      decide (k.val = 1 ∨ k.val = 3 ∨ k.val = 4 ∨ k.val = 6) := by decide

/-- `LockProj::dirs_u8` is injective: the packed byte determines the four
edge directions. -/
theorem dirsU8_inj : ∀ d1 d2 d3 d4 e1 e2 e3 e4 : Direction,
    dirsU8 d1 d2 d3 d4 = dirsU8 e1 e2 e3 e4 →
      d1 = e1 ∧ d2 = e2 ∧ d3 = e3 ∧ d4 = e4 := by decide

/-- On a state whose corner slots are Neutral, the face's direction list is
the edge-direction pattern. -/
theorem faceDirs_pattern (s : State) (f : Face) (h : cornersNeutral s) :
    faceDirs s f =
      [Direction.Neutral, (s (fpos f 1)).direction, Direction.Neutral,
       (s (fpos f 3)).direction, (s (fpos f 4)).direction, Direction.Neutral,
       (s (fpos f 6)).direction, Direction.Neutral] := by
  have h0 := h (fpos f 0) (by rw [edgeSlot_fpos]; decide)
  have h2 := h (fpos f 2) (by rw [edgeSlot_fpos]; decide)
  have h5 := h (fpos f 5) (by rw [edgeSlot_fpos]; decide)
  have h7 := h (fpos f 7) (by rw [edgeSlot_fpos]; decide)
  show [(s (fpos f 0)).direction, (s (fpos f 1)).direction,
    (s (fpos f 2)).direction, (s (fpos f 3)).direction,
    (s (fpos f 4)).direction, (s (fpos f 5)).direction,
    (s (fpos f 6)).direction, (s (fpos f 7)).direction] = _
  rw [h0, h2, h5, h7]

/-- The packed lock byte of face `f` inside `LockProj::project`. -/
theorem lockProj_byte (s : State) (f : Face) :
    (LockProj.project s).packedFaces.getD (faceIdx f).val 0 =
      dirsU8 (s (fpos f 1)).direction (s (fpos f 3)).direction
        (s (fpos f 4)).direction (s (fpos f 6)).direction := by
  cases f <;> rfl

/-- C6.  On reachable states no corner-slot sticker carries a non-Neutral
direction, and consequently two reachable states with equal `LockProj`
agree on `is_locked` for every face. -/
theorem c6_lockproj_sufficiency :
    (∀ s : State, Reachable s → cornersNeutral s) ∧
      (∀ s1 s2 : State, Reachable s1 → Reachable s2 →
        LockProj.project s1 = LockProj.project s2 →
        ∀ f : Face, s1.isLocked f = s2.isLocked f) := by
  have hreach : ∀ s : State, Reachable s → cornersNeutral s := by
    rintro s ⟨ms, rfl⟩
    exact cornersNeutral_applyMoves ms solvedState cornersNeutral_solved
  refine ⟨hreach, fun s1 s2 h1 h2 hlock f => ?_⟩
  have hb := (lockProj_byte s1 f).symm.trans
    ((congrArg (fun l : LockProj => l.packedFaces.getD (faceIdx f).val 0)
      hlock).trans (lockProj_byte s2 f))
  obtain ⟨e1, e3, e4, e6⟩ := dirsU8_inj _ _ _ _ _ _ _ _ hb
  unfold State.isLocked
  rw [faceDirs_pattern s1 f (hreach s1 h1), faceDirs_pattern s2 f (hreach s2 h2),
    e1, e3, e4, e6]

/-!
## Claim C8: corner-axis projections
-/

/-- Whether any of a corner's three stickers carries face `f1` or `f2` (the
claim's "carries a label from the chosen axis pair"). -/
def cornerHasAxisPair (f1 f2 : Face) (s : State)
    (c : Fin 48 × Fin 48 × Fin 48) : Bool :=
  decide ((s c.1).face = f1 ∨ (s c.1).face = f2 ∨
    (s c.2.1).face = f1 ∨ (s c.2.1).face = f2 ∨
    (s c.2.2).face = f1 ∨ (s c.2.2).face = f2)

/-- Whether any of a corner's three stickers carries face `f1` (what the
code actually tests). -/
def cornerHasFace (f1 : Face) (s : State) (c : Fin 48 × Fin 48 × Fin 48) :
    Bool :=
  decide (f1 = (s c.1).face ∨ f1 = (s c.2.1).face ∨ f1 = (s c.2.2).face)

/-- The solved state with the sticker at position 0 relabeled U → D (its
direction, Neutral, is unchanged). -/
def c8State : State := fun p =>
  if p = 0 then ⟨Face.D, (solvedState p).direction⟩ else solvedState p

set_option maxHeartbeats 1000000 in
set_option maxRecDepth 4096 in
/-- C8 counterexample.  `solvedState` and `c8State` give every corner the
same "carries a U/D label" answer (and the same lock projection), yet
`CornerUdProj::project` distinguishes them — so the projection's bits do
not indicate membership of the axis pair. -/
theorem c8_counterexample :
    LockProj.project solvedState = LockProj.project c8State ∧
      CORNERS.map (cornerHasAxisPair Face.U Face.D solvedState) =
        CORNERS.map (cornerHasAxisPair Face.U Face.D c8State) ∧
      CornerUdProj.project solvedState ≠ CornerUdProj.project c8State := by
  refine ⟨by decide, by decide, by decide⟩

/-- The corner triple at index `k` of `CORNERS`. -/
def cornerAt (k : Fin 8) : Fin 48 × Fin 48 × Fin 48 :=
  CORNERS.get ⟨k.val, by cases k with | mk v hv => simp [CORNERS]; omega⟩

set_option maxRecDepth 4096 in
theorem corners_eq_map : CORNERS = (List.finRange 8).map cornerAt := by decide

/-- MSB-first bit packing: bit `7 - k` of the fold is the `k`-th input
bit. -/
theorem foldl_bits_testBit8 : ∀ b0 b1 b2 b3 b4 b5 b6 b7 : Bool,
    Nat.testBit (([cond b0 (0 : ℕ) 1, cond b1 0 1, cond b2 0 1, cond b3 0 1,
        cond b4 0 1, cond b5 0 1, cond b6 0 1, cond b7 0 1].foldl
        (fun a bit => (a <<< 1) ||| bit) 0)) 7 = !b0 ∧
      Nat.testBit (([cond b0 (0 : ℕ) 1, cond b1 0 1, cond b2 0 1, cond b3 0 1,
        cond b4 0 1, cond b5 0 1, cond b6 0 1, cond b7 0 1].foldl
        (fun a bit => (a <<< 1) ||| bit) 0)) 6 = !b1 ∧
      Nat.testBit (([cond b0 (0 : ℕ) 1, cond b1 0 1, cond b2 0 1, cond b3 0 1,
        cond b4 0 1, cond b5 0 1, cond b6 0 1, cond b7 0 1].foldl
        (fun a bit => (a <<< 1) ||| bit) 0)) 5 = !b2 ∧
      Nat.testBit (([cond b0 (0 : ℕ) 1, cond b1 0 1, cond b2 0 1, cond b3 0 1,
        cond b4 0 1, cond b5 0 1, cond b6 0 1, cond b7 0 1].foldl
        (fun a bit => (a <<< 1) ||| bit) 0)) 4 = !b3 ∧
      Nat.testBit (([cond b0 (0 : ℕ) 1, cond b1 0 1, cond b2 0 1, cond b3 0 1,
        cond b4 0 1, cond b5 0 1, cond b6 0 1, cond b7 0 1].foldl
        (fun a bit => (a <<< 1) ||| bit) 0)) 3 = !b4 ∧
      Nat.testBit (([cond b0 (0 : ℕ) 1, cond b1 0 1, cond b2 0 1, cond b3 0 1,
        cond b4 0 1, cond b5 0 1, cond b6 0 1, cond b7 0 1].foldl
        (fun a bit => (a <<< 1) ||| bit) 0)) 2 = !b5 ∧
      Nat.testBit (([cond b0 (0 : ℕ) 1, cond b1 0 1, cond b2 0 1, cond b3 0 1,
        cond b4 0 1, cond b5 0 1, cond b6 0 1, cond b7 0 1].foldl
        (fun a bit => (a <<< 1) ||| bit) 0)) 1 = !b6 ∧
      Nat.testBit (([cond b0 (0 : ℕ) 1, cond b1 0 1, cond b2 0 1, cond b3 0 1,
        cond b4 0 1, cond b5 0 1, cond b6 0 1, cond b7 0 1].foldl
        (fun a bit => (a <<< 1) ||| bit) 0)) 0 = !b7 := by
  decide

/-- The corner-axis fold computes the MSB-first packing of the per-corner
primary-face bits. -/
theorem cornerAxisProject_packed (f1 : Face) (s : State) :
    (cornerAxisProject f1 s).packedFaces =
      ((List.finRange 8).map fun i =>
        cond (cornerHasFace f1 s (cornerAt i)) (0 : ℕ) 1).foldl
        (fun a bit => (a <<< 1) ||| bit) 0 := by
  have h1 : (cornerAxisProject f1 s).packedFaces =
      CORNERS.foldl (fun faces c =>
        (faces <<< 1) |||
          (if f1 = (s c.1).face ∨ f1 = (s c.2.1).face ∨ f1 = (s c.2.2).face
           then 0 else 1)) 0 := rfl
  rw [h1, corners_eq_map, List.foldl_map, List.foldl_map]
  congr 1
  funext a i
  by_cases h : f1 = (s (cornerAt i).1).face ∨ f1 = (s (cornerAt i).2.1).face ∨
      f1 = (s (cornerAt i).2.2).face <;> simp [cornerHasFace, h]

/-- Bit `7 - k` of the corner-axis packing is the primary-presence bit of
corner `k`. -/
theorem cornerAxis_testBit (f1 : Face) (s : State) (k : Fin 8) :
    Nat.testBit (cornerAxisProject f1 s).packedFaces (7 - k.val) =
      !(cornerHasFace f1 s (cornerAt k)) := by
  rw [cornerAxisProject_packed]
  have h := foldl_bits_testBit8 (cornerHasFace f1 s (cornerAt 0))
    (cornerHasFace f1 s (cornerAt 1)) (cornerHasFace f1 s (cornerAt 2))
    (cornerHasFace f1 s (cornerAt 3)) (cornerHasFace f1 s (cornerAt 4))
    (cornerHasFace f1 s (cornerAt 5)) (cornerHasFace f1 s (cornerAt 6))
    (cornerHasFace f1 s (cornerAt 7))
  fin_cases k
  · exact h.1
  · exact h.2.1
  · exact h.2.2.1
  · exact h.2.2.2.1
  · exact h.2.2.2.2.1
  · exact h.2.2.2.2.2.1
  · exact h.2.2.2.2.2.2.1
  · exact h.2.2.2.2.2.2.2

/-- C8 amended.  For each of `CornerUdProj`, `CornerFbProj`,
`CornerRlProj`, the projection assigns corner `k` the bit at position
`7 - k`, and that bit is `0` exactly when one of the corner's three
stickers carries the axis's *primary* face label (U, F, R respectively);
it does not see the secondary face (D, B, L). -/
theorem c8_corner_axis_primary_bit :
    ∀ (s : State) (k : Fin 8),
      Nat.testBit (CornerUdProj.project s).packedFaces (7 - k.val) =
          !(cornerHasFace Face.U s (cornerAt k)) ∧
        Nat.testBit (CornerFbProj.project s).packedFaces (7 - k.val) =
          !(cornerHasFace Face.F s (cornerAt k)) ∧
        Nat.testBit (CornerRlProj.project s).packedFaces (7 - k.val) =
          !(cornerHasFace Face.R s (cornerAt k)) := by
  intro s k
  exact ⟨cornerAxis_testBit Face.U s k, cornerAxis_testBit Face.F s k,
    cornerAxis_testBit Face.R s k⟩

/-!
## Claim C9: algorithm string round-trip
-/

instance {ε γ : Type} [DecidableEq ε] [DecidableEq γ] :
    DecidableEq (Except ε γ) := fun a b =>
  match a, b with
  | .error e1, .error e2 =>
    if h : e1 = e2 then isTrue (by rw [h])
    else isFalse (fun hh => by cases hh; exact h rfl)
  | .ok l1, .ok l2 =>
    if h : l1 = l2 then isTrue (by rw [h])
    else isFalse (fun hh => by cases hh; exact h rfl)
  | .error _, .ok _ => isFalse (fun hh => by cases hh)
  | .ok _, .error _ => isFalse (fun hh => by cases hh)

theorem moveFromStr_str : ∀ m : Move, moveFromStr m.str = some m := by decide

theorem moveStr_wf : ∀ m : Move, m.str ≠ [] ∧ ∀ c ∈ m.str, isWs c = false := by
  decide

theorem splitWsAux_token (t : List Char) (hws : ∀ c ∈ t, isWs c = false) :
    ∀ (rest acc : List Char),
      splitWsAux acc (t ++ rest) = splitWsAux (t.reverse ++ acc) rest := by
  induction t with
  | nil => intro rest acc; rfl
  | cons c t' ih =>
    intro rest acc
    have hc : isWs c = false := hws c (List.mem_cons_self c t')
    show splitWsAux acc (c :: (t' ++ rest)) = _
    rw [splitWsAux]
    simp only [hc, Bool.false_eq_true, if_false]
    have harr : (c :: t').reverse ++ acc = t'.reverse ++ (c :: acc) := by simp
    rw [harr]
    exact ih (fun x hx => hws x (List.mem_cons_of_mem c hx)) rest (c :: acc)

theorem splitWs_algoStr (ms : List Move) :
    splitWs (algoStr ms) = ms.map Move.str := by
  induction ms with
  | nil => rfl
  | cons m rest ih =>
    have hwf := moveStr_wf m
    show splitWsAux [] (m.str ++ _) = _
    rw [splitWsAux_token m.str hwf.2]
    have hrev : m.str.reverse ++ ([] : List Char) = m.str.reverse := by simp
    rw [hrev]
    have hne : m.str.reverse.isEmpty = false := by
      cases h : m.str.reverse with
      | nil => exact absurd (by simpa using congrArg List.reverse h) hwf.1
      | cons a l => rfl
    cases rest with
    | nil =>
      show splitWsAux m.str.reverse [] = [m.str]
      rw [splitWsAux]
      simp [hne]
    | cons m2 rest2 =>
      show splitWsAux m.str.reverse (' ' :: _) = _
      rw [splitWsAux]
      have : isWs ' ' = true := rfl
      simp only [this, if_true, hne, Bool.false_eq_true, if_false,
        List.reverse_reverse]
      exact congrArg (m.str :: ·) ih

theorem parseTokens_map_str (ms : List Move) :
    parseTokens (ms.map Move.str) = .ok ms := by
  induction ms with
  | nil => rfl
  | cons m rest ih =>
    show parseTokens (m.str :: _) = _
    rw [parseTokens, moveFromStr_str, ih]
    rfl

theorem moveFromStr_none_iff (t : List Char) :
    moveFromStr t = none ↔ t ∉ ALL_MOVES.map Move.str := by
  rw [moveFromStr, List.find?_eq_none]
  constructor
  · intro h hmem
    obtain ⟨m, hm, heq⟩ := List.mem_map.mp hmem
    exact h m hm (by simp [heq])
  · intro h m hm
    simp only [decide_eq_true_eq]
    intro heq
    exact h (List.mem_map.mpr ⟨m, hm, heq⟩)

theorem parseTokens_error_iff (ts : List (List Char)) :
    (∃ e, parseTokens ts = .error e) ↔ ∃ t ∈ ts, moveFromStr t = none := by
  induction ts with
  | nil => simp [parseTokens]
  | cons t ts' ih =>
    rw [parseTokens]
    cases h : moveFromStr t with
    | none => simp [h]
    | some m =>
      cases h2 : parseTokens ts' with
      | error e =>
        simp only [h2, Except.map]
        constructor
        · intro _
          obtain ⟨t', ht', hn⟩ := ih.mp ⟨e, h2⟩
          exact ⟨t', List.mem_cons_of_mem t ht', hn⟩
        · intro _
          exact ⟨e, rfl⟩
      | ok l =>
        simp only [h2, Except.map]
        constructor
        · rintro ⟨e, he⟩
          exact absurd he (by simp)
        · rintro ⟨t', ht', hn⟩
          rcases List.mem_cons.mp ht' with rfl | hmem
          · exact absurd h (by simp [hn])
          · obtain ⟨e, he⟩ := ih.mpr ⟨t', hmem, hn⟩
            simp [he] at h2

theorem parseTokens_error_mem (ts : List (List Char)) (e : List Char)
    (h : parseTokens ts = .error e) : e ∈ ts ∧ moveFromStr e = none := by
  induction ts with
  | nil => exact absurd h (by simp [parseTokens])
  | cons t ts' ih =>
    rw [parseTokens] at h
    cases hm : moveFromStr t with
    | none =>
      rw [hm] at h
      cases h
      exact ⟨List.mem_cons_self _ _, hm⟩
    | some m =>
      rw [hm] at h
      cases h2 : parseTokens ts' with
      | error e' =>
        rw [h2] at h
        cases h
        have := ih h2
        exact ⟨List.mem_cons_of_mem t this.1, this.2⟩
      | ok l =>
        rw [h2] at h
        exact absurd h (by simp [Except.map])

/-- C9.  Parsing inverts formatting for every `Algo`; parsing fails (with
the offending token in the error) exactly when some whitespace-separated
token is not one of the 18 move strings; `"R3 U"` and `"RU"` fail with
errors `"R3"` and `"RU"`, and the empty string parses to the empty
`Algo`. -/
theorem c9_algo_string_round_trip :
    (∀ ms : List Move, algoFromStr (algoStr ms) = .ok ms) ∧
      (∀ s : List Char,
        (∃ e, algoFromStr s = .error e) ↔
          ∃ t ∈ splitWs s, t ∉ ALL_MOVES.map Move.str) ∧
      (∀ (s : List Char) (e : List Char), algoFromStr s = .error e →
        e ∈ splitWs s ∧ e ∉ ALL_MOVES.map Move.str) ∧
      algoFromStr ['R', '3', ' ', 'U'] = .error ['R', '3'] ∧
      algoFromStr ['R', 'U'] = .error ['R', 'U'] ∧
      algoFromStr [] = .ok [] := by
  refine ⟨fun ms => ?_, fun s => ?_, fun s e h => ?_, by decide, by decide, rfl⟩
  · rw [algoFromStr, splitWs_algoStr, parseTokens_map_str]
  · rw [algoFromStr, parseTokens_error_iff]
    constructor
    · rintro ⟨t, ht, hn⟩
      exact ⟨t, ht, (moveFromStr_none_iff t).mp hn⟩
    · rintro ⟨t, ht, hn⟩
      exact ⟨t, ht, (moveFromStr_none_iff t).mpr hn⟩
  · rw [algoFromStr] at h
    have := parseTokens_error_mem _ _ h
    exact ⟨this.1, (moveFromStr_none_iff e).mp this.2⟩

/-- C9 witness: the theorem applied at the concrete failing input
`"R3 U"`. -/
theorem c9_witness :
    ['R', '3'] ∈ splitWs ['R', '3', ' ', 'U'] ∧
      ['R', '3'] ∉ ALL_MOVES.map Move.str :=
  c9_algo_string_round_trip.2.2.1 ['R', '3', ' ', 'U'] ['R', '3'] (by decide)

/-!
## Claim C1: solver soundness
-/

theorem solveSearch_sound (h : State → ℕ) :
    ∀ (d : ℕ) (s : State) (g : MoveGen) (ms : List Move),
      solveSearch h d s g = some ms →
      ms.length ≤ d ∧ (applyMoves ms s).isSolved = true := by
  intro d
  induction d with
  | zero =>
    intro s g ms hs
    rw [solveSearch] at hs
    by_cases hsol : s.isSolved
    · rw [if_pos hsol] at hs
      cases hs
      exact ⟨Nat.le_refl 0, hsol⟩
    · rw [if_neg hsol] at hs
      cases hs
  | succ d' ih =>
    intro s g ms hs
    rw [solveSearch] at hs
    by_cases hsol : s.isSolved
    · rw [if_pos hsol] at hs
      cases hs
      exact ⟨Nat.zero_le _, hsol⟩
    · rw [if_neg hsol] at hs
      by_cases hh : d' + 1 < h s
      · rw [if_pos hh] at hs
        cases hs
      · rw [if_neg hh] at hs
        obtain ⟨gm, _, hgm⟩ := List.exists_of_findSome?_eq_some hs
        by_cases hl : s.isLocked gm.2.face
        · rw [if_pos hl] at hgm
          cases hgm
        · rw [if_neg hl] at hgm
          obtain ⟨tail, htail, rfl⟩ := Option.map_eq_some'.mp hgm
          obtain ⟨hlen, hsolved⟩ := ih (gm.2.apply s) gm.1 tail htail
          exact ⟨Nat.succ_le_succ hlen, hsolved⟩

theorem projSolveSearch_sound {κ : Type} [DecidableEq κ] (proj : State → κ)
    (goal : κ) (h : State → ℕ) :
    ∀ (d : ℕ) (s : State) (g : MoveGen) (ms : List Move),
      projSolveSearch proj goal h d s g = some ms →
      ms.length ≤ d ∧ proj (applyMoves ms s) = goal := by
  intro d
  induction d with
  | zero =>
    intro s g ms hs
    rw [projSolveSearch] at hs
    by_cases hsol : goal = proj s
    · rw [if_pos hsol] at hs
      cases hs
      exact ⟨Nat.le_refl 0, hsol.symm⟩
    · rw [if_neg hsol] at hs
      cases hs
  | succ d' ih =>
    intro s g ms hs
    rw [projSolveSearch] at hs
    by_cases hsol : goal = proj s
    · rw [if_pos hsol] at hs
      cases hs
      exact ⟨Nat.zero_le _, hsol.symm⟩
    · rw [if_neg hsol] at hs
      by_cases hh : d' + 1 < h s
      · rw [if_pos hh] at hs
        cases hs
      · rw [if_neg hh] at hs
        obtain ⟨gm, _, hgm⟩ := List.exists_of_findSome?_eq_some hs
        by_cases hl : s.isLocked gm.2.face
        · rw [if_pos hl] at hgm
          cases hgm
        · rw [if_neg hl] at hgm
          obtain ⟨tail, htail, rfl⟩ := Option.map_eq_some'.mp hgm
          obtain ⟨hlen, hgoal⟩ := ih (gm.2.apply s) gm.1 tail htail
          exact ⟨Nat.succ_le_succ hlen, hgoal⟩

theorem chooseBest_mem (sols : List (List Move)) (ms : List Move)
    (h : chooseBest sols = some ms) : ms ∈ sols := by
  suffices haux : ∀ (l : List (List Move)) (acc : Option (List Move)),
      l.foldl (fun best sol =>
        match best with
        | none => some sol
        | some b => if sol.length < b.length then some sol else some b) acc
          = some ms →
      (acc = some ms ∨ ms ∈ l) by
    rcases haux sols none h with hacc | hmem
    · cases hacc
    · exact hmem
  intro l
  induction l with
  | nil =>
    intro acc hacc
    exact Or.inl hacc
  | cons sol rest ih =>
    intro acc hacc
    rcases ih _ hacc with hstep | hmem
    · cases acc with
      | none =>
        cases hstep
        exact Or.inr (List.mem_cons_self _ _)
      | some b =>
        dsimp only at hstep
        by_cases hlt : sol.length < b.length
        · rw [if_pos hlt] at hstep
          cases hstep
          exact Or.inr (List.mem_cons_self _ _)
        · rw [if_neg hlt] at hstep
          exact Or.inl hstep
    · exact Or.inr (List.mem_cons_of_mem _ hmem)

/-- C1.  Whenever `solve` or `solve_serial` returns an algorithm, it has
length at most `depth` and drives the state to `is_solved`; whenever
`proj_solve` or `proj_solve_serial` returns an algorithm, it has length at
most `depth` and drives the state's projection to the solved state's
projection — for every state, heuristic, depth, and projection. -/
theorem c1_solver_soundness :
    (∀ (s : State) (h : State → ℕ) (d : ℕ) (ms : List Move),
        solve s h d = some ms →
        ms.length ≤ d ∧ (applyMoves ms s).isSolved = true) ∧
      (∀ (s : State) (h : State → ℕ) (d : ℕ) (ms : List Move),
        solveSerial s h d = some ms →
        ms.length ≤ d ∧ (applyMoves ms s).isSolved = true) ∧
      (∀ (κ : Type) (inst : DecidableEq κ) (proj : State → κ) (s : State)
        (h : State → ℕ) (d : ℕ) (ms : List Move),
        projSolve proj s h d = some ms →
        ms.length ≤ d ∧ proj (applyMoves ms s) = proj solvedState) ∧
      (∀ (κ : Type) (inst : DecidableEq κ) (proj : State → κ) (s : State)
        (h : State → ℕ) (d : ℕ) (ms : List Move),
        projSolveSerial proj s h d = some ms →
        ms.length ≤ d ∧ proj (applyMoves ms s) = proj solvedState) := by
  have hserial : ∀ (s : State) (h : State → ℕ) (d : ℕ) (ms : List Move),
      solveSerial s h d = some ms →
      ms.length ≤ d ∧ (applyMoves ms s).isSolved = true :=
    fun s h d ms hs => solveSearch_sound h d s MoveGen.new ms hs
  have hpserial : ∀ (κ : Type) (inst : DecidableEq κ) (proj : State → κ)
      (s : State) (h : State → ℕ) (d : ℕ) (ms : List Move),
      projSolveSerial proj s h d = some ms →
      ms.length ≤ d ∧ proj (applyMoves ms s) = proj solvedState :=
    fun κ inst proj s h d ms hs =>
      projSolveSearch_sound proj (proj solvedState) h d s MoveGen.new ms hs
  refine ⟨fun s h d ms hs => ?_, hserial, fun κ inst proj s h d ms hs => ?_,
    hpserial⟩
  · cases d with
    | zero => exact hserial s h 0 ms hs
    | succ d' =>
      have hmem := chooseBest_mem _ _ hs
      obtain ⟨gm, _, hgm⟩ := List.mem_filterMap.mp hmem
      by_cases hl : s.isLocked gm.2.face
      · rw [if_pos hl] at hgm
        cases hgm
      · rw [if_neg hl] at hgm
        obtain ⟨hist, hhist, rfl⟩ := Option.map_eq_some'.mp hgm
        obtain ⟨hlen, hsolved⟩ := solveSearch_sound h d' (gm.2.apply s) gm.1
          hist hhist
        exact ⟨Nat.succ_le_succ hlen, hsolved⟩
  · cases d with
    | zero => exact hpserial κ inst proj s h 0 ms hs
    | succ d' =>
      have hmem := chooseBest_mem _ _ hs
      obtain ⟨gm, _, hgm⟩ := List.mem_filterMap.mp hmem
      by_cases hl : s.isLocked gm.2.face
      · rw [if_pos hl] at hgm
        cases hgm
      · rw [if_neg hl] at hgm
        obtain ⟨hist, hhist, rfl⟩ := Option.map_eq_some'.mp hgm
        obtain ⟨hlen, hgoal⟩ := projSolveSearch_sound proj (proj solvedState) h
          d' (gm.2.apply s) gm.1 hist hhist
        exact ⟨Nat.succ_le_succ hlen, hgoal⟩

/-- C1 witness: the theorem applied to the solved state at depth 0 with the
`NopHeuristic` (and, for the projection variant, `LockProj`). -/
theorem c1_witness :
    ((0 : ℕ) ≤ 0 ∧ (applyMoves [] solvedState).isSolved = true) ∧
      ((0 : ℕ) ≤ 0 ∧
        LockProj.project (applyMoves [] solvedState) =
          LockProj.project solvedState) :=
  ⟨c1_solver_soundness.1 solvedState nopH 0 [] (by decide),
    (c1_solver_soundness.2.2.1 LockProj inferInstance LockProj.project
      solvedState nopH 0 [] (by decide))⟩

/-- C6 witness: the T-perm followed by `U2` yields a reachable state that
differs from solved but has the same lock projection; the claim theorem
transports `is_locked` across. -/
def tpermU2Moves : List Move :=
  [⟨.R, .Clockwise⟩, ⟨.U, .Clockwise⟩, ⟨.R, .Counter⟩, ⟨.U, .Counter⟩,
   ⟨.R, .Counter⟩, ⟨.F, .Clockwise⟩, ⟨.R, .Double⟩, ⟨.U, .Counter⟩,
   ⟨.R, .Counter⟩, ⟨.U, .Counter⟩, ⟨.R, .Clockwise⟩, ⟨.U, .Clockwise⟩,
   ⟨.R, .Counter⟩, ⟨.F, .Counter⟩, ⟨.U, .Double⟩]

/-- The state reached by the T-perm followed by `U2`. -/
def tpermU2State : State := applyMoves tpermU2Moves solvedState

set_option maxRecDepth 8192 in
theorem c6_witness :
    solvedState.isLocked Face.R = tpermU2State.isLocked Face.R :=
  c6_lockproj_sufficiency.2 solvedState tpermU2State ⟨[], rfl⟩
    ⟨tpermU2Moves, rfl⟩ (by decide) Face.R

/-!
## Claim C7: multi-stage stage 1 control flow
-/

theorem findSome?_range_first {γ : Type} (f : ℕ → Option γ) (b : ℕ) (y : γ)
    (h : (List.range b).findSome? f = some y) :
    ∃ i, i < b ∧ f i = some y ∧ ∀ j < i, f j = none := by
  induction b with
  | zero => simp [List.range_zero] at h
  | succ b' ih =>
    rw [List.range_succ, List.findSome?_append] at h
    cases hfirst : (List.range b').findSome? f with
    | some y2 =>
      rw [hfirst] at h
      simp only [Option.or_some] at h
      cases h
      obtain ⟨i, hi, hf, hmin⟩ := ih hfirst
      exact ⟨i, Nat.lt_succ_of_lt hi, hf, hmin⟩
    | none =>
      rw [hfirst] at h
      simp only [Option.none_or] at h
      have hb : f b' = some y := by
        cases hfb : f b' with
        | none => rw [List.findSome?, hfb] at h; cases h
        | some z => rw [List.findSome?, hfb] at h; exact h
      refine ⟨b', Nat.lt_succ_self _, hb, fun j hj => ?_⟩
      exact List.findSome?_eq_none_iff.mp hfirst j (List.mem_range.mpr hj)

/-- `MultiStep::step` returns the solution of the first succeeding depth
below the bound. -/
theorem step_first {κ : Type} [DecidableEq κ] (proj : State → κ) (s : State)
    (h : State → ℕ) (b : ℕ) (a : List Move) (ns : State)
    (hstep : MultiStep.step proj s h b = some (a, ns)) :
    ∃ i, i < b ∧ projSolve proj s h i = some a ∧ ns = applyMoves a s ∧
      ∀ j < i, projSolve proj s h j = none := by
  obtain ⟨i, hib, hf, hmin⟩ := findSome?_range_first _ b _ hstep
  obtain ⟨sol, hsol, heq⟩ := Option.map_eq_some'.mp hf
  cases heq
  refine ⟨i, hib, hsol, rfl, fun j hj => ?_⟩
  exact Option.map_eq_none'.mp (hmin j hj)

theorem multiStepFinal_ne_invalidEdges (ms : MultiStep)
    (parts : List (List Move)) (s : State) :
    multiStepFinal ms parts s ≠ .error .InvalidEdges := by
  unfold multiStepFinal
  cases (List.range 255).findSome? fun i => solve s (combo2 ms) i with
  | some algo => intro hcontra; simp at hcontra
  | none => intro hcontra; simp at hcontra

theorem stages23_ne_invalidEdges (ms : MultiStep) (parts : List (List Move))
    (s : State) : multiStepStages23 ms parts s ≠ .error .InvalidEdges := by
  unfold multiStepStages23
  rcases h1 : MultiStep.step combo1Proj s (combo1 ms) 255 with _ | ⟨a2, s2⟩
  · intro hcontra
    simp at hcontra
  · dsimp only
    rcases h2 : MultiStep.step combo2Proj s2 (combo1 ms) 255 with _ | ⟨a3, s3⟩
    · intro hcontra
      simp at hcontra
    · dsimp only
      exact multiStepFinal_ne_invalidEdges ms (parts ++ [a2, a3]) s3

/-- C7.  `MultiStep::solve` first searches ArrowAxisProj with bound 14
(trying depths `0, 1, …, 13` in order and returning the first success); on
failure it runs LockProj with bound 13 then ArrowAxisProj with bound 255,
and returns `InvalidEdges` exactly when one of those two fallback searches
also fails. -/
theorem c7_multistep_stage1 :
    ∀ (ms : MultiStep) (s : State),
      (ms.solve s = .error .InvalidEdges ↔
        (MultiStep.step ArrowAxisProj.project s ms.arrow 14 = none ∧
          (MultiStep.step LockProj.project s ms.lock 13 = none ∨
            ∃ a1 s1,
              MultiStep.step LockProj.project s ms.lock 13 = some (a1, s1) ∧
                MultiStep.step ArrowAxisProj.project s1 ms.arrow 255 = none))) ∧
      (∀ a ns, MultiStep.step ArrowAxisProj.project s ms.arrow 14 = some (a, ns) →
        ∃ i, i < 14 ∧ projSolve ArrowAxisProj.project s ms.arrow i = some a ∧
          ns = applyMoves a s ∧
          ∀ j < i, projSolve ArrowAxisProj.project s ms.arrow j = none) := by
  intro ms s
  refine ⟨?_, fun a ns hs => step_first _ _ _ _ _ _ hs⟩
  unfold MultiStep.solve
  rcases h1 : MultiStep.step ArrowAxisProj.project s ms.arrow 14 with _ | ⟨a0, s0⟩
  · dsimp only
    rcases h2 : MultiStep.step LockProj.project s ms.lock 13 with _ | ⟨a1, s1⟩
    · exact ⟨fun _ => ⟨rfl, Or.inl rfl⟩, fun _ => rfl⟩
    · dsimp only
      rcases h3 : MultiStep.step ArrowAxisProj.project s1 ms.arrow 255 with _ | ⟨a2, s2⟩
      · exact ⟨fun _ => ⟨rfl, Or.inr ⟨a1, s1, rfl, h3⟩⟩, fun _ => rfl⟩
      · dsimp only
        constructor
        · intro hcontra
          exact absurd hcontra (stages23_ne_invalidEdges ms [a1, a2] s2)
        · rintro ⟨_, hor⟩
          rcases hor with h2n | ⟨a1', s1', h2s, h3n⟩
          · cases h2n
          · obtain ⟨rfl, rfl⟩ : a1' = a1 ∧ s1' = s1 := by
              injection h2s with hpair
              exact ⟨(congrArg Prod.fst hpair).symm, (congrArg Prod.snd hpair).symm⟩
            rw [h3n] at h3
            cases h3
  · dsimp only
    constructor
    · intro hcontra
      exact absurd hcontra (stages23_ne_invalidEdges ms [a0] s0)
    · rintro ⟨hnone, _⟩
      cases hnone

/-- C7 witness: with all-zero heuristics at the solved state, stage 1
succeeds at depth 0, and the theorem's characterization instantiates. -/
theorem c7_witness :
    ∃ i, i < 14 ∧
      projSolve ArrowAxisProj.project solvedState nopH i = some [] ∧
      solvedState = applyMoves [] solvedState ∧
      ∀ j < i, projSolve ArrowAxisProj.project solvedState nopH j = none :=
  (c7_multistep_stage1 ⟨nopH, nopH, nopH, nopH, nopH, nopH⟩ solvedState).2
    [] solvedState (by decide)

/-!
## Claim C3: the stage-3 heuristic of the multi-stage solver
-/

/-- Concrete tables for the C3 evidence: `co_fb`'s lower bound is the
constant 1000, all others are the constant 0. -/
def c3Tables : MultiStep :=
  ⟨fun _ => 0, fun _ => 1000, fun _ => 0, fun _ => 0, fun _ => 0, fun _ => 0⟩

/-- A state whose `Combo1Proj` projection (stage 2's goal) is already at
its solved image while its `Combo2Proj` projection (stage 3's goal) is
not: the solved state with the corner stickers at positions 16 and 26
relabeled F↔B. -/
def c3s2 : State := fun p =>
  if p = 16 then ⟨Face.B, (solvedState p).direction⟩
  else if p = 26 then ⟨Face.F, (solvedState p).direction⟩
  else solvedState p

/-- C3.  The stage-3 `step` call of `MultiStep::solve` receives `combo1` —
the stage-2 heuristic `max(arrow, co_fb, co_rl, co_ud)` — as its
heuristic (its failure yields the `InvalidState` error), and `combo1`
differs from the claimed `max(ArrowAxisProj, CornerProj)` heuristic: with
the `c3Tables` lower bounds it returns 1000 where `max(arrow, corner)`
returns 0. -/
theorem c3_stage3_uses_stage2_heuristic :
    (∀ (ms : MultiStep) (parts : List (List Move)) (s : State)
        (a2 : List Move) (s2 : State),
      MultiStep.step combo1Proj s (combo1 ms) 255 = some (a2, s2) →
      MultiStep.step combo2Proj s2 (combo1 ms) 255 = none →
      multiStepStages23 ms parts s = .error .InvalidState) ∧
      combo1 c3Tables solvedState = 1000 ∧
      maxH [c3Tables.arrow, c3Tables.corner] solvedState = 0 := by
  refine ⟨fun ms parts s a2 s2 h1 h2 => ?_, rfl, rfl⟩
  unfold multiStepStages23
  rw [h1]
  dsimp only
  rw [h2]

set_option maxRecDepth 8192 in
set_option maxHeartbeats 4000000 in
/-- C3 witness: at `c3s2` stage 2 succeeds immediately, stage 3 (driven by
the `combo1` heuristic, which prunes every branch) fails, and the solver
reports `InvalidState`. -/
theorem c3_witness :
    multiStepStages23 c3Tables [] c3s2 = .error .InvalidState :=
  c3_stage3_uses_stage2_heuristic.1 c3Tables [] c3s2 [] c3s2 (by decide)
    (by decide)

/-!
## Claim C5: pattern-database admissibility

Definitions and algebraic lemmas about moves, locks and the generator that
the breadth-first completeness argument needs.
-/

/-- Sum of two quarter-turn counts of the same face, `none` when they
cancel to the identity. -/
def turnsAdd : Turns → Turns → Option Turns
  | .Clockwise, .Clockwise => some .Double
  | .Clockwise, .Double => some .Counter
  | .Clockwise, .Counter => none
  | .Double, .Clockwise => some .Counter
  | .Double, .Double => none
  | .Double, .Counter => some .Clockwise
  | .Counter, .Clockwise => none
  | .Counter, .Double => some .Clockwise
  | .Counter, .Counter => some .Double

/-- A move sequence is lock-legal from `s` when every move turns a face
that is unlocked at the state it is applied to. -/
def LegalFrom : State → List Move → Prop
  | _, [] => True
  | s, m :: rest => s.isLocked m.face = false ∧ LegalFrom (m.apply s) rest

/-- One layer step of the table construction (`bfsIter j` is the
table/queue pair after `j` layers of `ProjHeuristic::generate`). -/
def bfsIter {κ : Type} [DecidableEq κ] (proj : State → κ) :
    ℕ → List (κ × ℕ) × List (MoveGen × State)
  | 0 => ([(proj solvedState, 0)], [(MoveGen.new, solvedState)])
  | j + 1 =>
    let tq := bfsIter proj j
    if tq.2.isEmpty then (tq.1, [])
    else tq.2.foldl (genExpand proj (j + 1)) (tq.1, [])

theorem lockedLoop_eq_contains :
    ∀ d1 d2 d3 d4 d5 d6 d7 d8 : Direction,
      lockedLoop Direction.Neutral [d1, d2, d3, d4, d5, d6, d7, d8] =
        ([d1, d2, d3, d4, d5, d6, d7, d8].contains Direction.Clockwise &&
          [d1, d2, d3, d4, d5, d6, d7, d8].contains Direction.Counter) := by
  decide

theorem faceDirs_eq (s : State) (f : Face) :
    faceDirs s f =
      [(s (fpos f 0)).direction, (s (fpos f 1)).direction,
        (s (fpos f 2)).direction, (s (fpos f 3)).direction,
        (s (fpos f 4)).direction, (s (fpos f 5)).direction,
        (s (fpos f 6)).direction, (s (fpos f 7)).direction] := rfl

/-- `is_locked` is the both-directions-present test. -/
theorem isLocked_eq_contains (s : State) (f : Face) :
    s.isLocked f =
      ((faceDirs s f).contains Direction.Clockwise &&
        (faceDirs s f).contains Direction.Counter) := by
  unfold State.isLocked
  rw [faceDirs_eq]
  exact lockedLoop_eq_contains _ _ _ _ _ _ _ _

theorem isLocked_iff_exists (s : State) (f : Face) :
    s.isLocked f = true ↔
      ((∃ k, (s (fpos f k)).direction = Direction.Clockwise) ∧
        ∃ k, (s (fpos f k)).direction = Direction.Counter) := by
  rw [isLocked_eq_contains]
  simp only [Bool.and_eq_true, List.contains_iff_exists_mem_beq, faceDirs]
  constructor
  · rintro ⟨⟨x, hx, hbx⟩, ⟨y, hy, hby⟩⟩
    obtain ⟨kx, _, rfl⟩ := List.mem_map.mp hx
    obtain ⟨ky, _, rfl⟩ := List.mem_map.mp hy
    exact ⟨⟨kx, Eq.symm (by simpa using hbx)⟩, ⟨ky, Eq.symm (by simpa using hby)⟩⟩
  · rintro ⟨⟨kx, hkx⟩, ⟨ky, hky⟩⟩
    exact ⟨⟨(s (fpos f kx)).direction,
        List.mem_map.mpr ⟨kx, List.mem_finRange kx, rfl⟩, by simp [hkx]⟩,
      ⟨(s (fpos f ky)).direction,
        List.mem_map.mpr ⟨ky, List.mem_finRange ky, rfl⟩, by simp [hky]⟩⟩

/-- A move of the same axis maps a face's eight slots onto themselves. -/
theorem movePerm_block : ∀ (m : Move) (f : Face),
    (decomposeFace m.face).1 = (decomposeFace f).1 →
      (∀ k : Fin 8, ∃ k', movePerm m (fpos f k) = fpos f k') ∧
        (∀ k' : Fin 8, ∃ k, movePerm m (fpos f k) = fpos f k') := by
  decide

/-- A move of a face on the same axis does not change whether that face is
locked. -/
theorem isLocked_same_axis (m : Move) (f : Face)
    (h : (decomposeFace m.face).1 = (decomposeFace f).1) (s : State) :
    (m.apply s).isLocked f = s.isLocked f := by
  obtain ⟨hfwd, hbwd⟩ := movePerm_block m f h
  have hdir : ∀ x : Direction,
      (∃ k, ((m.apply s) (fpos f k)).direction = x) ↔
        ∃ k, (s (fpos f k)).direction = x := by
    intro x
    constructor
    · rintro ⟨k, hk⟩
      obtain ⟨k', hk'⟩ := hfwd k
      rw [apply_eq_perm, hk'] at hk
      exact ⟨k', hk⟩
    · rintro ⟨k', hk'⟩
      obtain ⟨k, hk⟩ := hbwd k'
      refine ⟨k, ?_⟩
      rw [apply_eq_perm, hk]
      exact hk'
  by_cases h1 : (m.apply s).isLocked f = true
  · obtain ⟨he1, he2⟩ := (isLocked_iff_exists _ f).mp h1
    rw [h1, ((isLocked_iff_exists s f).mpr
      ⟨(hdir _).mp he1, (hdir _).mp he2⟩)]
  · have h2 : s.isLocked f ≠ true := fun hc => by
      obtain ⟨he1, he2⟩ := (isLocked_iff_exists s f).mp hc
      exact h1 ((isLocked_iff_exists _ f).mpr
        ⟨(hdir _).mpr he1, (hdir _).mpr he2⟩)
    simp only [Bool.not_eq_true] at h1 h2
    rw [h1, h2]

set_option maxHeartbeats 3000000 in
/-- Moves on opposite faces of the same axis commute (as permutations). -/
theorem movePerm_commute : ∀ (m m' : Move),
    (decomposeFace m.face).1 = (decomposeFace m'.face).1 → m.face ≠ m'.face →
      ∀ i, movePerm m (movePerm m' i) = movePerm m' (movePerm m i) := by
  decide

theorem apply_commute (m m' : Move)
    (hax : (decomposeFace m.face).1 = (decomposeFace m'.face).1)
    (hne : m.face ≠ m'.face) (s : State) :
    m.apply (m'.apply s) = m'.apply (m.apply s) := by
  funext i
  rw [apply_eq_perm, apply_eq_perm, apply_eq_perm, apply_eq_perm,
    movePerm_commute m' m hax.symm (Ne.symm hne)]

set_option maxHeartbeats 2000000 in
/-- Same-face moves compose to the summed turn (as permutations). -/
theorem movePerm_merge_some : ∀ (f : Face) (t1 t2 t3 : Turns),
    turnsAdd t1 t2 = some t3 → ∀ i : Fin 48,
      movePerm ⟨f, t1⟩ (movePerm ⟨f, t2⟩ i) = movePerm ⟨f, t3⟩ i := by
  decide

set_option maxHeartbeats 2000000 in
/-- Same-face moves with cancelling turn counts compose to the identity. -/
theorem movePerm_merge_none : ∀ (f : Face) (t1 t2 : Turns),
    turnsAdd t1 t2 = none → ∀ i : Fin 48,
      movePerm ⟨f, t1⟩ (movePerm ⟨f, t2⟩ i) = i := by
  decide

theorem apply_merge_some (f : Face) (t1 t2 t3 : Turns)
    (h : turnsAdd t1 t2 = some t3) (s : State) :
    Move.apply ⟨f, t2⟩ (Move.apply ⟨f, t1⟩ s) = Move.apply ⟨f, t3⟩ s := by
  funext i
  rw [apply_eq_perm, apply_eq_perm, movePerm_merge_some f t1 t2 t3 h i,
    apply_eq_perm]

theorem apply_merge_none (f : Face) (t1 t2 : Turns)
    (h : turnsAdd t1 t2 = none) (s : State) :
    Move.apply ⟨f, t2⟩ (Move.apply ⟨f, t1⟩ s) = s := by
  funext i
  rw [apply_eq_perm, apply_eq_perm, movePerm_merge_none f t1 t2 h i]

theorem mem_ALL_MOVES : ∀ m : Move, m ∈ ALL_MOVES := by decide

/-- A yielded move together with its successor generator is in the yield
list. -/
theorem genNext_mem_yields (g : MoveGen) (m : Move) (g2 : MoveGen)
    (h : genNext g m = some g2) : (g2, m) ∈ g.yields := by
  unfold MoveGen.yields
  refine List.mem_filterMap.mpr ⟨m, mem_ALL_MOVES m, ?_⟩
  rw [h]
  rfl

theorem genNext_new : ∀ m : Move, genNext MoveGen.new m ≠ none := by decide

/-- Facts about a successor generator. -/
theorem genNext_some_facts : ∀ (gp : MoveGen) (m0 : Move) (g : MoveGen),
    genNext gp m0 = some g →
      g.axis = (decomposeFace m0.face).1 ∧ g.axisState ≠ AxisState.Enabled ∧
        (g.axisState = AxisState.HalfDisabled ↔ (decomposeFace m0.face).2 = true) := by
  decide

/-- Facts about a skipped move. -/
theorem genNext_none_facts : ∀ (g : MoveGen) (m : Move),
    genNext g m = none →
      (decomposeFace m.face).1 = g.axis ∧
        (g.axisState = AxisState.Disabled ∨
          (g.axisState = AxisState.HalfDisabled ∧
            (decomposeFace m.face).2 = true)) := by
  decide

/-- The primary face of an axis is unique (and so is the secondary one). -/
theorem primary_unique : ∀ f f' : Face,
    (decomposeFace f).1 = (decomposeFace f').1 →
      (decomposeFace f).2 = (decomposeFace f').2 → f = f' := by
  decide

/-- Whether a move is yielded depends only on its face. -/
theorem genNext_same_face : ∀ (g : MoveGen) (f : Face) (t t' : Turns) (g2 : MoveGen),
    genNext g ⟨f, t⟩ = some g2 → genNext g ⟨f, t'⟩ = some g2 := by
  decide

/-- If a generator yields the primary face of an axis, it also yields the
secondary face of that axis (to the Disabled successor). -/
theorem genNext_primary_then_secondary : ∀ (g : MoveGen) (m1 m0 : Move) (g' : MoveGen),
    genNext g m1 = some g' →
      (decomposeFace m1.face).1 = (decomposeFace m0.face).1 →
      (decomposeFace m1.face).2 = true →
      (decomposeFace m0.face).2 = false →
      genNext g m0 ≠ none := by
  decide

/-- A yielded move determines its generator successor. -/
theorem mem_yields_genNext (g : MoveGen) (gm : MoveGen × Move)
    (h : gm ∈ g.yields) : genNext g gm.2 = some gm.1 := by
  unfold MoveGen.yields at h
  obtain ⟨m, -, hm⟩ := List.mem_filterMap.mp h
  obtain ⟨g2, hg2, heq⟩ := Option.map_eq_some'.mp hm
  cases heq
  exact hg2

/-- One inner step of `genExpand`, named so the fold inductions can speak
about it. -/
def expStep {κ : Type} [DecidableEq κ] (proj : State → κ) (dist : ℕ)
    (el : MoveGen × State) (acc2 : List (κ × ℕ) × List (MoveGen × State))
    (gm : MoveGen × Move) : List (κ × ℕ) × List (MoveGen × State) :=
  if el.2.isLocked gm.2.face then acc2
  else if (acc2.1.lookup (proj (gm.2.apply el.2))).isSome then acc2
  else ((proj (gm.2.apply el.2), dist) :: acc2.1,
    acc2.2 ++ [(gm.1, gm.2.apply el.2)])

theorem genExpand_eq_foldl {κ : Type} [DecidableEq κ] (proj : State → κ)
    (dist : ℕ) (acc : List (κ × ℕ) × List (MoveGen × State))
    (el : MoveGen × State) :
    genExpand proj dist acc el = el.1.yields.foldl (expStep proj dist el) acc :=
  rfl

theorem lookup_mem {κ : Type} [DecidableEq κ] {p : κ} {v : ℕ} :
    ∀ {tb : List (κ × ℕ)}, tb.lookup p = some v → (p, v) ∈ tb := by
  intro tb
  induction tb with
  | nil => intro h; exact absurd h (by simp [List.lookup])
  | cons hd tl ih =>
    obtain ⟨q, w⟩ := hd
    intro h
    by_cases hpq : p = q
    · subst hpq
      have hl : List.lookup p ((p, w) :: tl) = some w := by simp [List.lookup]
      rw [hl] at h
      cases h
      exact List.mem_cons_self _ _
    · have hl : List.lookup p ((q, w) :: tl) = List.lookup p tl := by
        simp [List.lookup, beq_eq_false_iff_ne.mpr hpq]
      rw [hl] at h
      exact List.mem_cons_of_mem _ (ih h)

theorem lookup_insert_ne {κ : Type} [DecidableEq κ] {tb : List (κ × ℕ)}
    {q p : κ} {d' v : ℕ} (hfresh : tb.lookup q = none)
    (hp : tb.lookup p = some v) : ((q, d') :: tb).lookup p = some v := by
  have hne : p ≠ q := fun h => by rw [h, hfresh] at hp; exact Option.noConfusion hp
  simp [List.lookup, hp, beq_eq_false_iff_ne.mpr hne]

theorem expStep_table_mono {κ : Type} [DecidableEq κ] {proj : State → κ}
    {dist : ℕ} {el : MoveGen × State}
    {acc2 : List (κ × ℕ) × List (MoveGen × State)} {gm : MoveGen × Move}
    {p : κ} {v : ℕ} (h : acc2.1.lookup p = some v) :
    (expStep proj dist el acc2 gm).1.lookup p = some v := by
  unfold expStep
  split
  · exact h
  · split
    · exact h
    · rename_i hfresh
      exact lookup_insert_ne (Option.not_isSome_iff_eq_none.mp hfresh) h

theorem expStep_values {κ : Type} [DecidableEq κ] {proj : State → κ}
    {dist : ℕ} {el : MoveGen × State}
    {acc2 : List (κ × ℕ) × List (MoveGen × State)} {gm : MoveGen × Move}
    (h : ∀ pv ∈ acc2.1, pv.2 ≤ dist) :
    ∀ pv ∈ (expStep proj dist el acc2 gm).1, pv.2 ≤ dist := by
  unfold expStep
  split
  · exact h
  · split
    · exact h
    · intro pv hpv
      rcases List.mem_cons.mp hpv with heq | hm
      · rw [heq]
      · exact h pv hm

theorem expStep_queue_mono {κ : Type} [DecidableEq κ] {proj : State → κ}
    {dist : ℕ} {el : MoveGen × State}
    {acc2 : List (κ × ℕ) × List (MoveGen × State)} {gm : MoveGen × Move}
    {gs : MoveGen × State} (h : gs ∈ acc2.2) :
    gs ∈ (expStep proj dist el acc2 gm).2 := by
  unfold expStep
  split
  · exact h
  · split
    · exact h
    · exact List.mem_append_left _ h

theorem expStep_queue_src {κ : Type} [DecidableEq κ] {proj : State → κ}
    {dist : ℕ} {el : MoveGen × State}
    {acc2 : List (κ × ℕ) × List (MoveGen × State)} {gm : MoveGen × Move}
    {gs : MoveGen × State} (h : gs ∈ (expStep proj dist el acc2 gm).2) :
    gs ∈ acc2.2 ∨
      (gs = (gm.1, gm.2.apply el.2) ∧ el.2.isLocked gm.2.face = false) := by
  unfold expStep at h
  split at h
  · exact Or.inl h
  · rename_i hlock
    split at h
    · exact Or.inl h
    · rcases List.mem_append.mp h with hm | hm
      · exact Or.inl hm
      · exact Or.inr ⟨List.mem_singleton.mp hm,
          Bool.not_eq_true _ ▸ hlock⟩

theorem expStep_lookup_inv {κ : Type} [DecidableEq κ] {proj : State → κ}
    {dist : ℕ} {el : MoveGen × State}
    {acc2 : List (κ × ℕ) × List (MoveGen × State)} {gm : MoveGen × Move}
    {p : κ} {v : ℕ} (h : (expStep proj dist el acc2 gm).1.lookup p = some v) :
    acc2.1.lookup p = some v ∨
      (v = dist ∧ ∃ gs ∈ (expStep proj dist el acc2 gm).2, proj gs.2 = p) := by
  unfold expStep at h ⊢
  split at h
  · exact Or.inl h
  · rename_i hlock
    rw [if_neg hlock]
    split at h
    · rename_i hsome
      rw [if_pos hsome]
      exact Or.inl h
    · rename_i hsome
      rw [if_neg hsome]
      by_cases hpq : p = proj (gm.2.apply el.2)
      · subst hpq
        have hl : List.lookup (proj (gm.2.apply el.2))
            ((proj (gm.2.apply el.2), dist) :: acc2.1) = some dist := by
          simp [List.lookup]
        rw [hl] at h
        cases h
        refine Or.inr ⟨rfl, (gm.1, gm.2.apply el.2), ?_, rfl⟩
        exact List.mem_append_right _ (List.mem_singleton.mpr rfl)
      · have hl : List.lookup p ((proj (gm.2.apply el.2), dist) :: acc2.1) =
            List.lookup p acc2.1 := by
          simp [List.lookup, beq_eq_false_iff_ne.mpr hpq]
        rw [hl] at h
        exact Or.inl h

theorem expStep_queue_proj {κ : Type} [DecidableEq κ] {proj : State → κ}
    {dist : ℕ} {el : MoveGen × State}
    {acc2 : List (κ × ℕ) × List (MoveGen × State)} {gm : MoveGen × Move}
    (h : ∀ gs ∈ acc2.2, acc2.1.lookup (proj gs.2) = some dist) :
    ∀ gs ∈ (expStep proj dist el acc2 gm).2,
      (expStep proj dist el acc2 gm).1.lookup (proj gs.2) = some dist := by
  intro gs hgs
  unfold expStep at hgs ⊢
  split at hgs
  · rename_i hlock
    rw [if_pos hlock]
    exact h gs hgs
  · rename_i hlock
    rw [if_neg hlock]
    split at hgs
    · rename_i hsome
      rw [if_pos hsome]
      exact h gs hgs
    · rename_i hsome
      rw [if_neg hsome]
      rcases List.mem_append.mp hgs with hold | hnew
      · exact lookup_insert_ne (Option.not_isSome_iff_eq_none.mp hsome)
          (h gs hold)
      · have heq : gs = (gm.1, gm.2.apply el.2) := List.mem_singleton.mp hnew
        subst heq
        simp [List.lookup]

section FoldLemmas

variable {κ : Type} [DecidableEq κ] {proj : State → κ} {dist : ℕ}
variable {el : MoveGen × State}

theorem foldl_expStep_table_mono :
    ∀ (l : List (MoveGen × Move)) (acc : List (κ × ℕ) × List (MoveGen × State))
      {p : κ} {v : ℕ}, acc.1.lookup p = some v →
        ((l.foldl (expStep proj dist el) acc).1).lookup p = some v := by
  intro l
  induction l with
  | nil => intro acc p v h; exact h
  | cons hd tl ih =>
    intro acc p v h
    exact ih (expStep proj dist el acc hd) (expStep_table_mono h)

theorem foldl_expStep_values :
    ∀ (l : List (MoveGen × Move)) (acc : List (κ × ℕ) × List (MoveGen × State)),
      (∀ pv ∈ acc.1, pv.2 ≤ dist) →
        ∀ pv ∈ (l.foldl (expStep proj dist el) acc).1, pv.2 ≤ dist := by
  intro l
  induction l with
  | nil => intro acc h; exact h
  | cons hd tl ih =>
    intro acc h
    exact ih (expStep proj dist el acc hd) (expStep_values h)

theorem foldl_expStep_queue_mono :
    ∀ (l : List (MoveGen × Move)) (acc : List (κ × ℕ) × List (MoveGen × State))
      {gs : MoveGen × State}, gs ∈ acc.2 →
        gs ∈ (l.foldl (expStep proj dist el) acc).2 := by
  intro l
  induction l with
  | nil => intro acc gs h; exact h
  | cons hd tl ih =>
    intro acc gs h
    exact ih (expStep proj dist el acc hd) (expStep_queue_mono h)

theorem foldl_expStep_covers :
    ∀ (l : List (MoveGen × Move)) (acc : List (κ × ℕ) × List (MoveGen × State))
      (gm : MoveGen × Move), gm ∈ l → el.2.isLocked gm.2.face = false →
        (∀ pv ∈ acc.1, pv.2 ≤ dist) →
        ∃ v ≤ dist, ((l.foldl (expStep proj dist el) acc).1).lookup
          (proj (gm.2.apply el.2)) = some v := by
  intro l
  induction l with
  | nil => intro acc gm hm; exact absurd hm (List.not_mem_nil gm)
  | cons hd tl ih =>
    intro acc gm hm hlock hvals
    rcases List.mem_cons.mp hm with heq | hm2
    · subst heq
      cases hsome : (acc.1.lookup (proj (gm.2.apply el.2))).isSome with
      | true =>
        obtain ⟨v, hv⟩ := Option.isSome_iff_exists.mp hsome
        refine ⟨v, hvals _ (lookup_mem hv), ?_⟩
        have hstep : (expStep proj dist el acc gm).1.lookup
            (proj (gm.2.apply el.2)) = some v := expStep_table_mono hv
        exact foldl_expStep_table_mono tl _ hstep
      | false =>
        refine ⟨dist, le_refl dist, ?_⟩
        have hstep : (expStep proj dist el acc gm).1.lookup
            (proj (gm.2.apply el.2)) = some dist := by
          unfold expStep
          rw [if_neg (by rw [hlock]; exact Bool.false_ne_true),
            if_neg (by rw [hsome]; exact Bool.false_ne_true)]
          simp [List.lookup]
        exact foldl_expStep_table_mono tl _ hstep
    · exact ih (expStep proj dist el acc hd) gm hm2 hlock
        (expStep_values hvals)

theorem foldl_expStep_lookup_inv :
    ∀ (l : List (MoveGen × Move)) (acc : List (κ × ℕ) × List (MoveGen × State))
      {p : κ} {v : ℕ},
      ((l.foldl (expStep proj dist el) acc).1).lookup p = some v →
        acc.1.lookup p = some v ∨
          (v = dist ∧ ∃ gs ∈ (l.foldl (expStep proj dist el) acc).2,
            proj gs.2 = p) := by
  intro l
  induction l with
  | nil => intro acc p v h; exact Or.inl h
  | cons hd tl ih =>
    intro acc p v h
    rcases ih (expStep proj dist el acc hd) h with h1 | h1
    · rcases expStep_lookup_inv h1 with h2 | ⟨hv, gs, hgs, hp⟩
      · exact Or.inl h2
      · exact Or.inr ⟨hv, gs, foldl_expStep_queue_mono tl _ hgs, hp⟩
    · exact Or.inr h1

theorem foldl_expStep_queue_src :
    ∀ (l : List (MoveGen × Move)) (acc : List (κ × ℕ) × List (MoveGen × State))
      {gs : MoveGen × State}, gs ∈ (l.foldl (expStep proj dist el) acc).2 →
        gs ∈ acc.2 ∨ ∃ gm ∈ l, gs = (gm.1, gm.2.apply el.2) ∧
          el.2.isLocked gm.2.face = false := by
  intro l
  induction l with
  | nil => intro acc gs h; exact Or.inl h
  | cons hd tl ih =>
    intro acc gs h
    rcases ih (expStep proj dist el acc hd) h with h1 | ⟨gm, hgm, hrest⟩
    · rcases expStep_queue_src h1 with h2 | h2
      · exact Or.inl h2
      · exact Or.inr ⟨hd, List.mem_cons_self _ _, h2⟩
    · exact Or.inr ⟨gm, List.mem_cons_of_mem _ hgm, hrest⟩

theorem foldl_expStep_queue_proj :
    ∀ (l : List (MoveGen × Move)) (acc : List (κ × ℕ) × List (MoveGen × State)),
      (∀ gs ∈ acc.2, acc.1.lookup (proj gs.2) = some dist) →
        ∀ gs ∈ (l.foldl (expStep proj dist el) acc).2,
          ((l.foldl (expStep proj dist el) acc).1).lookup (proj gs.2) =
            some dist := by
  intro l
  induction l with
  | nil => intro acc h; exact h
  | cons hd tl ih =>
    intro acc h
    exact ih (expStep proj dist el acc hd) (expStep_queue_proj h)

theorem genExpand_table_mono
    (acc : List (κ × ℕ) × List (MoveGen × State)) {p : κ} {v : ℕ}
    (h : acc.1.lookup p = some v) :
    ((genExpand proj dist acc el).1).lookup p = some v := by
  rw [genExpand_eq_foldl]
  exact foldl_expStep_table_mono _ acc h

theorem genExpand_values (acc : List (κ × ℕ) × List (MoveGen × State))
    (h : ∀ pv ∈ acc.1, pv.2 ≤ dist) :
    ∀ pv ∈ (genExpand proj dist acc el).1, pv.2 ≤ dist := by
  rw [genExpand_eq_foldl]
  exact foldl_expStep_values _ acc h

theorem genExpand_queue_mono (acc : List (κ × ℕ) × List (MoveGen × State))
    {gs : MoveGen × State} (h : gs ∈ acc.2) :
    gs ∈ (genExpand proj dist acc el).2 := by
  rw [genExpand_eq_foldl]
  exact foldl_expStep_queue_mono _ acc h

theorem genExpand_covers (acc : List (κ × ℕ) × List (MoveGen × State))
    (gm : MoveGen × Move) (hm : gm ∈ el.1.yields)
    (hlock : el.2.isLocked gm.2.face = false)
    (hvals : ∀ pv ∈ acc.1, pv.2 ≤ dist) :
    ∃ v ≤ dist, ((genExpand proj dist acc el).1).lookup
      (proj (gm.2.apply el.2)) = some v := by
  rw [genExpand_eq_foldl]
  exact foldl_expStep_covers _ acc gm hm hlock hvals

theorem genExpand_lookup_inv (acc : List (κ × ℕ) × List (MoveGen × State))
    {p : κ} {v : ℕ} (h : ((genExpand proj dist acc el).1).lookup p = some v) :
    acc.1.lookup p = some v ∨
      (v = dist ∧ ∃ gs ∈ (genExpand proj dist acc el).2, proj gs.2 = p) := by
  rw [genExpand_eq_foldl] at h ⊢
  exact foldl_expStep_lookup_inv _ acc h

theorem genExpand_queue_src (acc : List (κ × ℕ) × List (MoveGen × State))
    {gs : MoveGen × State} (h : gs ∈ (genExpand proj dist acc el).2) :
    gs ∈ acc.2 ∨ ∃ gm ∈ el.1.yields, gs = (gm.1, gm.2.apply el.2) ∧
      el.2.isLocked gm.2.face = false := by
  rw [genExpand_eq_foldl] at h
  exact foldl_expStep_queue_src _ acc h

theorem genExpand_queue_proj (acc : List (κ × ℕ) × List (MoveGen × State))
    (h : ∀ gs ∈ acc.2, acc.1.lookup (proj gs.2) = some dist) :
    ∀ gs ∈ (genExpand proj dist acc el).2,
      ((genExpand proj dist acc el).1).lookup (proj gs.2) = some dist := by
  rw [genExpand_eq_foldl]
  exact foldl_expStep_queue_proj _ acc h

end FoldLemmas

section QueueLemmas

variable {κ : Type} [DecidableEq κ] {proj : State → κ} {dist : ℕ}

theorem qfold_table_mono :
    ∀ (q : List (MoveGen × State)) (acc : List (κ × ℕ) × List (MoveGen × State))
      {p : κ} {v : ℕ}, acc.1.lookup p = some v →
        ((q.foldl (genExpand proj dist) acc).1).lookup p = some v := by
  intro q
  induction q with
  | nil => intro acc p v h; exact h
  | cons hd tl ih =>
    intro acc p v h
    exact ih (genExpand proj dist acc hd) (genExpand_table_mono acc h)

theorem qfold_values :
    ∀ (q : List (MoveGen × State)) (acc : List (κ × ℕ) × List (MoveGen × State)),
      (∀ pv ∈ acc.1, pv.2 ≤ dist) →
        ∀ pv ∈ (q.foldl (genExpand proj dist) acc).1, pv.2 ≤ dist := by
  intro q
  induction q with
  | nil => intro acc h; exact h
  | cons hd tl ih =>
    intro acc h
    exact ih (genExpand proj dist acc hd) (genExpand_values acc h)

theorem qfold_queue_mono :
    ∀ (q : List (MoveGen × State)) (acc : List (κ × ℕ) × List (MoveGen × State))
      {gs : MoveGen × State}, gs ∈ acc.2 →
        gs ∈ (q.foldl (genExpand proj dist) acc).2 := by
  intro q
  induction q with
  | nil => intro acc gs h; exact h
  | cons hd tl ih =>
    intro acc gs h
    exact ih (genExpand proj dist acc hd) (genExpand_queue_mono acc h)

theorem qfold_covers :
    ∀ (q : List (MoveGen × State)) (acc : List (κ × ℕ) × List (MoveGen × State))
      (el : MoveGen × State) (gm : MoveGen × Move), el ∈ q →
        gm ∈ el.1.yields → el.2.isLocked gm.2.face = false →
        (∀ pv ∈ acc.1, pv.2 ≤ dist) →
        ∃ v ≤ dist, ((q.foldl (genExpand proj dist) acc).1).lookup
          (proj (gm.2.apply el.2)) = some v := by
  intro q
  induction q with
  | nil => intro acc el gm hel; exact absurd hel (List.not_mem_nil el)
  | cons hd tl ih =>
    intro acc el gm hel hm hlock hvals
    rcases List.mem_cons.mp hel with heq | hel2
    · subst heq
      obtain ⟨v, hv, hlook⟩ := genExpand_covers acc gm hm hlock hvals
      exact ⟨v, hv, qfold_table_mono tl _ hlook⟩
    · exact ih (genExpand proj dist acc hd) el gm hel2 hm hlock
        (genExpand_values acc hvals)

theorem qfold_lookup_inv :
    ∀ (q : List (MoveGen × State)) (acc : List (κ × ℕ) × List (MoveGen × State))
      {p : κ} {v : ℕ},
      ((q.foldl (genExpand proj dist) acc).1).lookup p = some v →
        acc.1.lookup p = some v ∨
          (v = dist ∧ ∃ gs ∈ (q.foldl (genExpand proj dist) acc).2,
            proj gs.2 = p) := by
  intro q
  induction q with
  | nil => intro acc p v h; exact Or.inl h
  | cons hd tl ih =>
    intro acc p v h
    rcases ih (genExpand proj dist acc hd) h with h1 | h1
    · rcases genExpand_lookup_inv acc h1 with h2 | ⟨hv, gs, hgs, hp⟩
      · exact Or.inl h2
      · exact Or.inr ⟨hv, gs, qfold_queue_mono tl _ hgs, hp⟩
    · exact Or.inr h1

theorem qfold_queue_src :
    ∀ (q : List (MoveGen × State)) (acc : List (κ × ℕ) × List (MoveGen × State))
      {gs : MoveGen × State}, gs ∈ (q.foldl (genExpand proj dist) acc).2 →
        gs ∈ acc.2 ∨ ∃ el ∈ q, ∃ gm ∈ el.1.yields,
          gs = (gm.1, gm.2.apply el.2) ∧ el.2.isLocked gm.2.face = false := by
  intro q
  induction q with
  | nil => intro acc gs h; exact Or.inl h
  | cons hd tl ih =>
    intro acc gs h
    rcases ih (genExpand proj dist acc hd) h with h1 | ⟨el, hel, hrest⟩
    · rcases genExpand_queue_src acc h1 with h2 | ⟨gm, hgm, hrest⟩
      · exact Or.inl h2
      · exact Or.inr ⟨hd, List.mem_cons_self _ _, gm, hgm, hrest⟩
    · exact Or.inr ⟨el, List.mem_cons_of_mem _ hel, hrest⟩

theorem qfold_queue_proj :
    ∀ (q : List (MoveGen × State)) (acc : List (κ × ℕ) × List (MoveGen × State)),
      (∀ gs ∈ acc.2, acc.1.lookup (proj gs.2) = some dist) →
        ∀ gs ∈ (q.foldl (genExpand proj dist) acc).2,
          ((q.foldl (genExpand proj dist) acc).1).lookup (proj gs.2) =
            some dist := by
  intro q
  induction q with
  | nil => intro acc h; exact h
  | cons hd tl ih =>
    intro acc h
    exact ih (genExpand proj dist acc hd) (genExpand_queue_proj acc h)

end QueueLemmas

section LayerLemmas

variable {κ : Type} [DecidableEq κ] {proj : State → κ}

theorem bfsIter_zero :
    bfsIter proj 0 = ([(proj solvedState, 0)], [(MoveGen.new, solvedState)]) :=
  rfl

theorem bfsIter_succ (j : ℕ) :
    bfsIter proj (j + 1) =
      if (bfsIter proj j).2.isEmpty then ((bfsIter proj j).1, [])
      else (bfsIter proj j).2.foldl (genExpand proj (j + 1))
        ((bfsIter proj j).1, []) := by
  rw [bfsIter]

theorem bfsIter_succ_of_mem {j : ℕ} {el : MoveGen × State}
    (hel : el ∈ (bfsIter proj j).2) :
    bfsIter proj (j + 1) =
      (bfsIter proj j).2.foldl (genExpand proj (j + 1))
        ((bfsIter proj j).1, []) := by
  rw [bfsIter_succ]
  rw [if_neg]
  intro hemp
  rw [List.isEmpty_iff.mp hemp] at hel
  exact List.not_mem_nil el hel

theorem bfs_values : ∀ j : ℕ, ∀ pv ∈ (bfsIter proj j).1, pv.2 ≤ j := by
  intro j
  induction j with
  | zero =>
    intro pv hpv
    rw [bfsIter_zero] at hpv
    rcases List.mem_singleton.mp hpv with heq
    rw [heq]
  | succ j ih =>
    intro pv hpv
    rw [bfsIter_succ] at hpv
    split at hpv
    · exact le_trans (ih pv hpv) (Nat.le_succ j)
    · exact qfold_values (bfsIter proj j).2 ((bfsIter proj j).1, [])
        (fun pv2 h2 => le_trans (ih pv2 h2) (Nat.le_succ j)) pv hpv

theorem bfs_mono_succ {j : ℕ} {p : κ} {v : ℕ}
    (h : ((bfsIter proj j).1).lookup p = some v) :
    ((bfsIter proj (j + 1)).1).lookup p = some v := by
  rw [bfsIter_succ]
  split
  · exact h
  · exact qfold_table_mono _ _ h

theorem bfs_mono : ∀ {j k : ℕ}, j ≤ k → ∀ {p : κ} {v : ℕ},
    ((bfsIter proj j).1).lookup p = some v →
      ((bfsIter proj k).1).lookup p = some v := by
  intro j k hjk
  induction k with
  | zero =>
    intro p v h
    rw [Nat.le_zero.mp hjk] at h
    exact h
  | succ k ih =>
    intro p v h
    rcases Nat.lt_or_ge j (k + 1) with hlt | hge
    · exact bfs_mono_succ (ih (Nat.lt_succ_iff.mp hlt) h)
    · rw [le_antisymm hjk hge] at h
      exact h

theorem bfs_queue_proj : ∀ j : ℕ, ∀ gs ∈ (bfsIter proj j).2,
    ((bfsIter proj j).1).lookup (proj gs.2) = some j := by
  intro j
  induction j with
  | zero =>
    intro gs hgs
    rw [bfsIter_zero] at hgs ⊢
    rcases List.mem_singleton.mp hgs with heq
    rw [heq]
    simp [List.lookup]
  | succ j _ =>
    intro gs hgs
    rw [bfsIter_succ] at hgs ⊢
    split at hgs
    · exact absurd hgs (List.not_mem_nil gs)
    · rename_i hne
      rw [if_neg hne]
      exact qfold_queue_proj _ _ (fun gs2 h2 => absurd h2 (List.not_mem_nil gs2))
        gs hgs

theorem bfs_queue_src : ∀ (j : ℕ) {gs : MoveGen × State},
    gs ∈ (bfsIter proj (j + 1)).2 →
      ∃ el ∈ (bfsIter proj j).2, ∃ gm ∈ el.1.yields,
        gs = (gm.1, gm.2.apply el.2) ∧ el.2.isLocked gm.2.face = false := by
  intro j gs hgs
  rw [bfsIter_succ] at hgs
  split at hgs
  · exact absurd hgs (List.not_mem_nil gs)
  · rcases qfold_queue_src _ _ hgs with h1 | h1
    · exact absurd h1 (List.not_mem_nil gs)
    · exact h1

theorem bfs_rep : ∀ (j : ℕ) {p : κ} {v : ℕ},
    ((bfsIter proj j).1).lookup p = some v →
      ∃ gs ∈ (bfsIter proj v).2, proj gs.2 = p := by
  intro j
  induction j with
  | zero =>
    intro p v h
    rw [bfsIter_zero] at h
    by_cases hp : p = proj solvedState
    · subst hp
      have hl : List.lookup (proj solvedState) [(proj solvedState, 0)] =
          some 0 := by simp [List.lookup]
      rw [hl] at h
      cases h
      exact ⟨(MoveGen.new, solvedState), List.mem_singleton.mpr rfl, rfl⟩
    · have hl : List.lookup p [(proj solvedState, 0)] = none := by
        simp [List.lookup, beq_eq_false_iff_ne.mpr hp]
      rw [hl] at h
      exact absurd h (by simp)
  | succ j ih =>
    intro p v h
    rw [bfsIter_succ] at h
    split at h
    · exact ih h
    · rcases qfold_lookup_inv _ _ h with h1 | ⟨hv, gs, hgs, hp⟩
      · exact ih h1
      · subst hv
        refine ⟨gs, ?_, hp⟩
        rw [bfsIter_succ]
        rw [if_neg (by assumption)]
        exact hgs

theorem bfs_covers {j : ℕ} {el : MoveGen × State}
    (hel : el ∈ (bfsIter proj j).2) {gm : MoveGen × Move}
    (hm : gm ∈ el.1.yields) (hlock : el.2.isLocked gm.2.face = false) :
    ∃ v ≤ j + 1, ((bfsIter proj (j + 1)).1).lookup
      (proj (gm.2.apply el.2)) = some v := by
  rw [bfsIter_succ_of_mem hel]
  exact qfold_covers _ _ el gm hel hm hlock
    (fun pv h2 => le_trans (bfs_values j pv h2) (Nat.le_succ j))

end LayerLemmas

theorem cornersNeutral_apply (m : Move) (s : State) (h : cornersNeutral s) :
    cornersNeutral (m.apply s) := by
  intro p hp
  rw [apply_eq_perm]
  exact h _ (by rw [movePerm_edgeSlot]; exact hp)

theorem bfs_queue_neutral {κ : Type} [DecidableEq κ] {proj : State → κ} :
    ∀ j : ℕ, ∀ gs ∈ (bfsIter proj j).2, cornersNeutral gs.2 := by
  intro j
  induction j with
  | zero =>
    intro gs hgs
    rw [bfsIter_zero] at hgs
    rw [List.mem_singleton.mp hgs]
    exact cornersNeutral_solved
  | succ j ih =>
    intro gs hgs
    obtain ⟨el, hel, gm, -, heq, -⟩ := bfs_queue_src j hgs
    rw [heq]
    exact cornersNeutral_apply gm.2 el.2 (ih el hel)

theorem genNext_disabled_same_axis : ∀ (g : MoveGen) (m : Move),
    g.axisState = AxisState.Disabled → (decomposeFace m.face).1 = g.axis →
      genNext g m = none := by
  decide

/-- When the same face is moved twice in a row, replacing the pair with the
merged move (or nothing) stays inside the table. -/
theorem bfs_merge_case {κ : Type} [DecidableEq κ] {proj : State → κ} (j' : ℕ)
    (gp : MoveGen) (sp : State) (hel : (gp, sp) ∈ (bfsIter proj j').2)
    (f0 : Face) (t0 mt : Turns) (g : MoveGen)
    (hgen0 : genNext gp ⟨f0, t0⟩ = some g)
    (hlockp : sp.isLocked f0 = false) :
    ∃ v ≤ j' + 1, ((bfsIter proj (j' + 1)).1).lookup
      (proj (Move.apply ⟨f0, mt⟩ (Move.apply ⟨f0, t0⟩ sp))) = some v := by
  cases ht : turnsAdd t0 mt with
  | some t3 =>
    rw [apply_merge_some f0 t0 mt t3 ht sp]
    have hgen3 : genNext gp ⟨f0, t3⟩ = some g :=
      genNext_same_face gp f0 t0 t3 g hgen0
    exact bfs_covers hel (genNext_mem_yields gp ⟨f0, t3⟩ g hgen3) hlockp
  | none =>
    rw [apply_merge_none f0 t0 mt ht sp]
    have hq := bfs_queue_proj j' (gp, sp) hel
    exact ⟨j', Nat.le_succ j', bfs_mono (Nat.le_succ j') hq⟩

/-- The primary-face flag of a move, the tiebreaker of the termination
measure in the completeness induction. -/
def primaryBit (m : Move) : ℕ := if (decomposeFace m.face).2 then 1 else 0

/-- Breadth-first completeness: any unlocked move out of a queue state of
layer `j` lands on a projection recorded in the table of layer `j + 1`,
with value at most `j + 1`.  `Hcong` and `Hlock` say the projection is a
congruence for moves and determines face locks on corner-neutral states
(the contract of the `Proj` trait). -/
theorem bfs_M {κ : Type} [DecidableEq κ] {proj : State → κ}
    (Hcong : ∀ (m : Move) (s s' : State), cornersNeutral s → cornersNeutral s' →
      proj s = proj s' → proj (m.apply s) = proj (m.apply s'))
    (Hlock : ∀ (s s' : State) (f : Face), cornersNeutral s → cornersNeutral s' →
      proj s = proj s' → s.isLocked f = s'.isLocked f) :
    ∀ (n j : ℕ) (m : Move), 2 * j + primaryBit m ≤ n →
      ∀ g s, (g, s) ∈ (bfsIter proj j).2 → s.isLocked m.face = false →
        ∃ v ≤ j + 1,
          ((bfsIter proj (j + 1)).1).lookup (proj (m.apply s)) = some v := by
  intro n
  induction n using Nat.strong_induction_on with
  | _ n ih =>
  intro j m hmeas g s hmem hlockm
  cases hgn : genNext g m with
  | some g2 =>
    exact bfs_covers hmem (genNext_mem_yields g m g2 hgn) hlockm
  | none =>
    obtain ⟨haxis, hstate⟩ := genNext_none_facts g m hgn
    cases j with
    | zero =>
      rw [bfsIter_zero] at hmem
      have hsolved : (g, s) = (MoveGen.new, solvedState) :=
        List.mem_singleton.mp hmem
      injection hsolved with h1 h2
      rw [h1] at hgn
      exact absurd hgn (genNext_new m)
    | succ j' =>
      obtain ⟨el, hel, gm, hgm, heq, hlockp0⟩ := bfs_queue_src j' hmem
      obtain ⟨gp, sp⟩ := el
      obtain ⟨g2p, m0⟩ := gm
      injection heq with hg hs
      subst hs
      have hgen0 : genNext gp m0 = some g := by
        rw [hg]
        exact mem_yields_genNext gp (g2p, m0) hgm
      obtain ⟨hax2, hneen, hhalf⟩ := genNext_some_facts gp m0 g hgen0
      have hlockp : sp.isLocked m0.face = false := hlockp0
      have hsame : m.face = m0.face →
          ∃ v ≤ j' + 1 + 1, ((bfsIter proj (j' + 1 + 1)).1).lookup
            (proj (Move.apply m (Move.apply m0 sp))) = some v := by
        intro hface
        obtain ⟨mf, mt⟩ := m
        obtain ⟨m0f, m0t⟩ := m0
        have hface' : mf = m0f := hface
        subst hface'
        obtain ⟨v, hv, hlook⟩ :=
          bfs_merge_case j' gp sp hel mf m0t mt g hgen0 hlockp
        exact ⟨v, by omega, bfs_mono_succ hlook⟩
      rcases hstate with hdis | ⟨hhd, hprim⟩
      · -- the axis of `g` (that of the parent move) is fully disabled
        have hm0sec : (decomposeFace m0.face).2 = false := by
          rcases Bool.eq_false_or_eq_true (decomposeFace m0.face).2 with h | h
          · have hcontra := hhalf.mpr h
            rw [hdis] at hcontra
            exact absurd hcontra (by decide)
          · exact h
        cases hp : (decomposeFace m.face).2 with
        | false =>
          exact hsame (primary_unique _ _ (haxis.trans hax2)
            (hp.trans hm0sec.symm))
        | true =>
          -- `m` is the primary face of a disabled axis: commute it with the
          -- parent's (secondary, opposite-face) move
          have hax : (decomposeFace m.face).1 = (decomposeFace m0.face).1 :=
            haxis.trans hax2
          have hmne : m.face ≠ m0.face := by
            intro hcontra
            rw [hcontra] at hp
            rw [hp] at hm0sec
            exact Bool.noConfusion hm0sec
          have hcomm := apply_commute m m0 hax hmne sp
          have hlocksp : sp.isLocked m.face = false := by
            have hsl := isLocked_same_axis m0 m.face hax.symm sp
            rw [← hsl]
            exact hlockm
          cases hg2 : genNext gp m with
          | some gm2 =>
            obtain ⟨v1, hv1, hlook1⟩ :=
              bfs_covers hel (genNext_mem_yields gp m gm2 hg2) hlocksp
            obtain ⟨gs2, hmem2, hproj2⟩ := bfs_rep (j' + 1) hlook1
            obtain ⟨g'', s''⟩ := gs2
            have hn1 : cornersNeutral s'' := bfs_queue_neutral v1 _ hmem2
            have hnsp : cornersNeutral sp := bfs_queue_neutral j' _ hel
            have hn2 : cornersNeutral (m.apply sp) :=
              cornersNeutral_apply m sp hnsp
            have hm0lock2 : (m.apply sp).isLocked m0.face = false := by
              rw [isLocked_same_axis m m0.face hax sp]
              exact hlockp
            have hm0lock3 : s''.isLocked m0.face = false := by
              rw [Hlock s'' (m.apply sp) m0.face hn1 hn2 hproj2]
              exact hm0lock2
            have hb0 : primaryBit m0 = 0 := by simp [primaryBit, hm0sec]
            have hb1 : primaryBit m = 1 := by simp [primaryBit, hp]
            have hlt : 2 * v1 + primaryBit m0 < n := by omega
            obtain ⟨v2, hv2, hlook2⟩ := ih (2 * v1 + primaryBit m0) hlt v1 m0
              (le_refl _) g'' s'' hmem2 hm0lock3
            have hcong2 : proj (Move.apply m0 s'') =
                proj (Move.apply m (Move.apply m0 sp)) := by
              rw [Hcong m0 s'' (m.apply sp) hn1 hn2 hproj2, ← hcomm]
            refine ⟨v2, by omega, ?_⟩
            rw [← hcong2]
            exact bfs_mono (by omega) hlook2
          | none =>
            obtain ⟨haxgp, hstgp⟩ := genNext_none_facts gp m hg2
            have hgphd : gp.axisState = AxisState.HalfDisabled := by
              rcases hstgp with h | ⟨h, -⟩
              · have hnone := genNext_disabled_same_axis gp m0 h (by
                  rw [← hax2, ← haxis]
                  exact haxgp)
                rw [hgen0] at hnone
                exact Option.noConfusion hnone
              · exact h
            cases j' with
            | zero =>
              rw [bfsIter_zero] at hel
              have hsolved : (gp, sp) = (MoveGen.new, solvedState) :=
                List.mem_singleton.mp hel
              injection hsolved with h1 h2
              rw [h1] at hgphd
              exact absurd hgphd (by decide)
            | succ j'' =>
              obtain ⟨el2, hel2, gm2, hgm2, heq2, hlockpp0⟩ :=
                bfs_queue_src j'' hel
              obtain ⟨gpp, spp⟩ := el2
              obtain ⟨gp2, m1⟩ := gm2
              injection heq2 with hgp2 hsp
              subst hsp
              have hgen1 : genNext gpp m1 = some gp := by
                rw [hgp2]
                exact mem_yields_genNext gpp (gp2, m1) hgm2
              obtain ⟨haxm1, -, hhalf1⟩ := genNext_some_facts gpp m1 gp hgen1
              have hm1prim : (decomposeFace m1.face).2 = true :=
                hhalf1.mp hgphd
              have hfaceeq : m.face = m1.face := primary_unique _ _
                (by rw [haxgp, haxm1]) (hp.trans hm1prim.symm)
              have hsppm0 : spp.isLocked m0.face = false := by
                have hsl := isLocked_same_axis m1 m0.face
                  (by rw [← hfaceeq]; exact hax) spp
                rw [← hsl]
                exact hlockp
              have hlockpp : spp.isLocked m1.face = false := hlockpp0
              obtain ⟨mf, mt⟩ := m
              obtain ⟨m1f, m1t⟩ := m1
              have hf : mf = m1f := hfaceeq
              subst hf
              cases ht : turnsAdd m1t mt with
              | some t3 =>
                have hmerge : Move.apply ⟨mf, mt⟩ (Move.apply ⟨mf, m1t⟩ spp) =
                    Move.apply ⟨mf, t3⟩ spp := apply_merge_some mf m1t mt t3 ht spp
                have hgen2 : genNext gpp ⟨mf, t3⟩ = some gp :=
                  genNext_same_face gpp mf m1t t3 gp hgen1
                obtain ⟨v1, hv1, hlook1⟩ := bfs_covers hel2
                  (genNext_mem_yields gpp ⟨mf, t3⟩ gp hgen2) hlockpp
                obtain ⟨gs3, hmem3, hproj3⟩ := bfs_rep (j'' + 1) hlook1
                obtain ⟨g3, s3⟩ := gs3
                have hn3 : cornersNeutral s3 := bfs_queue_neutral v1 _ hmem3
                have hnspp : cornersNeutral spp := bfs_queue_neutral j'' _ hel2
                have hn4 : cornersNeutral (Move.apply ⟨mf, t3⟩ spp) :=
                  cornersNeutral_apply _ _ hnspp
                have hm0lockt : (Move.apply ⟨mf, t3⟩ spp).isLocked m0.face =
                    false := by
                  rw [isLocked_same_axis ⟨mf, t3⟩ m0.face hax spp]
                  exact hsppm0
                have hm0lock3 : s3.isLocked m0.face = false := by
                  rw [Hlock s3 (Move.apply ⟨mf, t3⟩ spp) m0.face hn3 hn4 hproj3]
                  exact hm0lockt
                have hb0 : primaryBit m0 = 0 := by simp [primaryBit, hm0sec]
                have hb1 : primaryBit ⟨mf, mt⟩ = 1 := by simp [primaryBit, hp]
                have hlt : 2 * v1 + primaryBit m0 < n := by omega
                obtain ⟨v2, hv2, hlook2⟩ := ih (2 * v1 + primaryBit m0) hlt v1
                  m0 (le_refl _) g3 s3 hmem3 hm0lock3
                have hcong2 : proj (Move.apply m0 s3) =
                    proj (Move.apply m0 (Move.apply ⟨mf, t3⟩ spp)) :=
                  Hcong m0 s3 _ hn3 hn4 hproj3
                refine ⟨v2, by omega, ?_⟩
                have hchain : Move.apply ⟨mf, mt⟩
                    (Move.apply m0 (Move.apply ⟨mf, m1t⟩ spp)) =
                    Move.apply m0 (Move.apply ⟨mf, t3⟩ spp) := by
                  rw [← hmerge]
                  exact apply_commute ⟨mf, mt⟩ m0 hax hmne
                    (Move.apply ⟨mf, m1t⟩ spp)
                rw [hchain, ← hcong2]
                exact bfs_mono (by omega) hlook2
              | none =>
                have hmerge : Move.apply ⟨mf, mt⟩ (Move.apply ⟨mf, m1t⟩ spp) =
                    spp := apply_merge_none mf m1t mt ht spp
                have hgen3 : genNext gpp m0 ≠ none :=
                  genNext_primary_then_secondary gpp ⟨mf, m1t⟩ m0 gp hgen1 hax
                    hm1prim hm0sec
                cases hg4 : genNext gpp m0 with
                | none => exact absurd hg4 hgen3
                | some g4 =>
                  obtain ⟨v1, hv1, hlook1⟩ := bfs_covers hel2
                    (genNext_mem_yields gpp m0 g4 hg4) hsppm0
                  refine ⟨v1, by omega, ?_⟩
                  have hchain : Move.apply ⟨mf, mt⟩
                      (Move.apply m0 (Move.apply ⟨mf, m1t⟩ spp)) =
                      Move.apply m0 spp := by
                    rw [apply_commute ⟨mf, mt⟩ m0 hax hmne
                      (Move.apply ⟨mf, m1t⟩ spp), hmerge]
                  rw [hchain]
                  exact bfs_mono (by omega) hlook1
      · -- the parent move was primary and `m` is the same primary face
        have hm0prim : (decomposeFace m0.face).2 = true := hhalf.mp hhd
        exact hsame (primary_unique _ _ (haxis.trans hax2)
          (hprim.trans hm0prim.symm))

theorem bfs_empty_stable {κ : Type} [DecidableEq κ] (proj : State → κ)
    (j : ℕ) (hq : (bfsIter proj j).2.isEmpty = true) :
    ∀ k : ℕ, (bfsIter proj (j + k)).1 = (bfsIter proj j).1 ∧
      (bfsIter proj (j + k)).2.isEmpty = true := by
  intro k
  induction k with
  | zero => exact ⟨rfl, hq⟩
  | succ k ih =>
    have hstep : bfsIter proj (j + k + 1) = ((bfsIter proj (j + k)).1, []) := by
      rw [bfsIter_succ, if_pos ih.2]
    constructor
    · show (bfsIter proj (j + k + 1)).1 = _
      rw [hstep]
      exact ih.1
    · show (bfsIter proj (j + k + 1)).2.isEmpty = true
      rw [hstep]
      rfl

theorem genLayers_eq_bfsIter {κ : Type} [DecidableEq κ] (proj : State → κ) :
    ∀ (fuel j : ℕ),
      genLayers proj fuel (j + 1) ((bfsIter proj j).1) ((bfsIter proj j).2) =
        (bfsIter proj (j + fuel)).1 := by
  intro fuel
  induction fuel with
  | zero => intro j; rfl
  | succ fuel ih =>
    intro j
    rw [genLayers]
    cases hq : (bfsIter proj j).2.isEmpty with
    | true =>
      rw [if_pos rfl]
      exact (bfs_empty_stable proj j hq (fuel + 1)).1.symm
    | false =>
      rw [if_neg (fun hcontra => Bool.noConfusion hcontra)]
      show genLayers proj fuel (j + 1 + 1)
        ((bfsIter proj j).2.foldl (genExpand proj (j + 1))
          ((bfsIter proj j).1, [])).1
        ((bfsIter proj j).2.foldl (genExpand proj (j + 1))
          ((bfsIter proj j).1, [])).2 = _
      have hres : (bfsIter proj j).2.foldl (genExpand proj (j + 1))
          ((bfsIter proj j).1, []) = bfsIter proj (j + 1) := by
        rw [bfsIter_succ, if_neg (by rw [hq]; exact Bool.false_ne_true)]
      rw [hres, ih (j + 1)]
      have harith : j + 1 + fuel = j + (fuel + 1) := by omega
      rw [harith]

/-- The table built by `ProjHeuristic::generate` is the layer-`d` table of
the breadth-first iteration. -/
theorem generate_table_eq {κ : Type} [DecidableEq κ] (proj : State → κ)
    (d : ℕ) : (ProjTable.generate proj d).table = (bfsIter proj d).1 := by
  have h := (genLayers_eq_bfsIter proj d 0).trans
    (congrArg (fun n => (bfsIter proj n).1) (Nat.zero_add d))
  show genLayers proj d 1 [(proj solvedState, 0)] [(MoveGen.new, solvedState)] =
    (bfsIter proj d).1
  exact h

theorem applyMoves_append (a b : List Move) (s : State) :
    applyMoves (a ++ b) s = applyMoves b (applyMoves a s) := by
  unfold applyMoves
  rw [List.foldl_append]

theorem legalFrom_append (s : State) (ms : List Move) (m : Move) :
    LegalFrom s (ms ++ [m]) ↔
      LegalFrom s ms ∧ (applyMoves ms s).isLocked m.face = false := by
  induction ms generalizing s with
  | nil => simp [LegalFrom, applyMoves]
  | cons m0 rest ih =>
    constructor
    · rintro ⟨h1, h2⟩
      have hih := (ih (m0.apply s)).mp h2
      refine ⟨⟨h1, hih.1⟩, ?_⟩
      rw [applyMoves_cons]
      exact hih.2
    · rintro ⟨⟨h1, h2⟩, h3⟩
      rw [applyMoves_cons] at h3
      exact ⟨h1, (ih (m0.apply s)).mpr ⟨h2, h3⟩⟩

/-- A lock-legal algorithm of length `L` leaves its projection in the
layer-`L` table, with recorded value at most `L`. -/
theorem reach_entry {κ : Type} [DecidableEq κ] (proj : State → κ)
    (Hcong : ∀ (m : Move) (s s' : State), cornersNeutral s → cornersNeutral s' →
      proj s = proj s' → proj (m.apply s) = proj (m.apply s'))
    (Hlock : ∀ (s s' : State) (f : Face), cornersNeutral s → cornersNeutral s' →
      proj s = proj s' → s.isLocked f = s'.isLocked f) :
    ∀ algo : List Move, LegalFrom solvedState algo →
      ∃ v ≤ algo.length, ((bfsIter proj algo.length).1).lookup
        (proj (applyMoves algo solvedState)) = some v := by
  intro algo
  induction algo using List.reverseRecOn with
  | nil =>
    intro _
    refine ⟨0, le_refl 0, ?_⟩
    show List.lookup (proj solvedState) (bfsIter proj 0).1 = some 0
    rw [bfsIter_zero]
    simp [List.lookup]
  | append_singleton ms m ih =>
    intro hleg
    obtain ⟨hleg0, hlockL⟩ := (legalFrom_append solvedState ms m).mp hleg
    obtain ⟨v, hv, hlook⟩ := ih hleg0
    obtain ⟨gs, hmem, hproj⟩ := bfs_rep ms.length hlook
    obtain ⟨g', s'⟩ := gs
    have hn1 : cornersNeutral s' := bfs_queue_neutral v _ hmem
    have hn2 : cornersNeutral (applyMoves ms solvedState) :=
      cornersNeutral_applyMoves ms solvedState cornersNeutral_solved
    have hlock' : s'.isLocked m.face = false := by
      rw [Hlock s' (applyMoves ms solvedState) m.face hn1 hn2 hproj]
      exact hlockL
    obtain ⟨v2, hv2, hlook2⟩ := bfs_M Hcong Hlock
      (2 * v + primaryBit m) v m (le_refl _) g' s' hmem hlock'
    have hcong2 : proj (m.apply s') =
        proj (m.apply (applyMoves ms solvedState)) :=
      Hcong m s' _ hn1 hn2 hproj
    have hlen : (ms ++ [m]).length = ms.length + 1 := by simp
    refine ⟨v2, ?_, ?_⟩
    · omega
    · rw [hlen, applyMoves_append]
      have happ : applyMoves [m] (applyMoves ms solvedState) =
          m.apply (applyMoves ms solvedState) := rfl
      rw [happ, ← hcong2]
      exact bfs_mono (by omega) hlook2

theorem edge_gpos_slots : ∀ fi : Fin 6,
    edgeSlot (gpos fi 1) = true ∧ edgeSlot (gpos fi 3) = true ∧
      edgeSlot (gpos fi 4) = true ∧ edgeSlot (gpos fi 6) = true := by
  decide

theorem lockProj_face_dirs {s s' : State}
    (hproj : LockProj.project s = LockProj.project s') (f : Face) :
    (s (fpos f 1)).direction = (s' (fpos f 1)).direction ∧
      (s (fpos f 3)).direction = (s' (fpos f 3)).direction ∧
      (s (fpos f 4)).direction = (s' (fpos f 4)).direction ∧
      (s (fpos f 6)).direction = (s' (fpos f 6)).direction := by
  have hb := (lockProj_byte s f).symm.trans
    ((congrArg (fun l : LockProj => l.packedFaces.getD (faceIdx f).val 0)
      hproj).trans (lockProj_byte s' f))
  exact dirsU8_inj _ _ _ _ _ _ _ _ hb

theorem lockProj_edge_dirs {s s' : State}
    (hproj : LockProj.project s = LockProj.project s') :
    ∀ p : Fin 48, edgeSlot p = true → (s p).direction = (s' p).direction := by
  intro p hp
  obtain ⟨e1, e3, e4, e6⟩ := lockProj_face_dirs hproj (posFace p)
  rcases of_decide_eq_true hp with h | h | h | h
  · have hk1 : fpos (posFace p) 1 = p := by
      have he : (⟨p.val % 8, by omega⟩ : Fin 8) = (1 : Fin 8) := Fin.ext h
      rw [← he]
      exact fpos_posFace p
    rw [← hk1]
    exact e1
  · have hk1 : fpos (posFace p) 3 = p := by
      have he : (⟨p.val % 8, by omega⟩ : Fin 8) = (3 : Fin 8) := Fin.ext h
      rw [← he]
      exact fpos_posFace p
    rw [← hk1]
    exact e3
  · have hk1 : fpos (posFace p) 4 = p := by
      have he : (⟨p.val % 8, by omega⟩ : Fin 8) = (4 : Fin 8) := Fin.ext h
      rw [← he]
      exact fpos_posFace p
    rw [← hk1]
    exact e4
  · have hk1 : fpos (posFace p) 6 = p := by
      have he : (⟨p.val % 8, by omega⟩ : Fin 8) = (6 : Fin 8) := Fin.ext h
      rw [← he]
      exact fpos_posFace p
    rw [← hk1]
    exact e6

/-- `LockProj` is a congruence for moves: the projection of a successor
state depends only on the projection of the state. -/
theorem lockProj_Hcong (m : Move) (s s' : State)
    (hproj : LockProj.project s = LockProj.project s') :
    LockProj.project (m.apply s) = LockProj.project (m.apply s') := by
  have hd := lockProj_edge_dirs hproj
  unfold LockProj.project
  simp only [LockProj.mk.injEq]
  refine List.map_congr_left fun fi _ => ?_
  obtain ⟨h1, h3, h4, h6⟩ := edge_gpos_slots fi
  simp only [apply_eq_perm]
  rw [hd (movePerm m (gpos fi 1)) (by rw [movePerm_edgeSlot]; exact h1),
    hd (movePerm m (gpos fi 3)) (by rw [movePerm_edgeSlot]; exact h3),
    hd (movePerm m (gpos fi 4)) (by rw [movePerm_edgeSlot]; exact h4),
    hd (movePerm m (gpos fi 6)) (by rw [movePerm_edgeSlot]; exact h6)]

/-- `LockProj` determines `is_locked` on corner-neutral states. -/
theorem lockProj_Hlock (s s' : State) (f : Face) (h1 : cornersNeutral s)
    (h2 : cornersNeutral s')
    (hproj : LockProj.project s = LockProj.project s') :
    s.isLocked f = s'.isLocked f := by
  obtain ⟨e1, e3, e4, e6⟩ := lockProj_face_dirs hproj f
  unfold State.isLocked
  rw [faceDirs_pattern s f h1, faceDirs_pattern s' f h2, e1, e3, e4, e6]

set_option maxRecDepth 16384 in
set_option maxHeartbeats 40000000 in
/-- C5 counterexample.  The state reached by the length-2 algorithm `L' D'`
(whose second move turns a face that is locked at that point, so the
sequence could never arise in a search) has `CornerProj` lower bound 3 in
the depth-2 table — strictly more than its distance 2 from solved, refuting
the claim for arbitrary algorithms with `d = L = 2`. -/
theorem c5_counterexample :
    (applyMoves [⟨Face.L, Turns.Counter⟩] solvedState).isLocked Face.D =
        true ∧
      (ProjTable.generate CornerProj.project 2).lowerBound CornerProj.project
        (applyMoves [⟨Face.L, Turns.Counter⟩, ⟨Face.D, Turns.Counter⟩]
          solvedState) = 3 := by
  constructor
  · decide
  · decide

/-- C5 (amended).  Pattern-database admissibility for lock-legal
algorithms: if `s` is reached from solved by an algorithm of length `L`
each of whose moves turns a face unlocked at the state it is applied to,
then for every projection that is a move-congruence and determines face
locks on corner-neutral states (the documented contract of the `Proj`
trait) and every `ProjHeuristic` generated with depth `d ≥ L`,
`lower_bound(s) ≤ L`. -/
theorem c5_pdb_admissibility_lock_legal {κ : Type} [DecidableEq κ]
    (proj : State → κ)
    (Hcong : ∀ (m : Move) (s s' : State), cornersNeutral s → cornersNeutral s' →
      proj s = proj s' → proj (m.apply s) = proj (m.apply s'))
    (Hlock : ∀ (s s' : State) (f : Face), cornersNeutral s → cornersNeutral s' →
      proj s = proj s' → s.isLocked f = s'.isLocked f)
    (algo : List Move) (hleg : LegalFrom solvedState algo) (d : ℕ)
    (hd : algo.length ≤ d) :
    (ProjTable.generate proj d).lowerBound proj (applyMoves algo solvedState) ≤
      algo.length := by
  obtain ⟨v, hv, hlook⟩ := reach_entry proj Hcong Hlock algo hleg
  have hlook2 := bfs_mono hd hlook
  unfold ProjTable.lowerBound
  rw [generate_table_eq proj d, hlook2]
  simpa using hv

set_option maxRecDepth 8192 in
set_option maxHeartbeats 4000000 in
/-- C5 witness: the amended theorem applied to `LockProj` and the
lock-legal one-move algorithm `U`, at table depth 1. -/
theorem c5_witness :
    LegalFrom solvedState [⟨Face.U, Turns.Clockwise⟩] ∧
      (ProjTable.generate LockProj.project 1).lowerBound LockProj.project
        (applyMoves [⟨Face.U, Turns.Clockwise⟩] solvedState) ≤ 1 :=
  ⟨⟨by decide, trivial⟩,
    c5_pdb_admissibility_lock_legal LockProj.project
      (fun m s s' _ _ h => lockProj_Hcong m s s' h)
      (fun s s' f h1 h2 h => lockProj_Hlock s s' f h1 h2 h)
      [⟨Face.U, Turns.Clockwise⟩] ⟨by decide, trivial⟩ 1 (by decide)⟩

end Locky
